import Mathlib

/-!
Verification of the partitioning / querying front-end of the impg tool
(`src/main.rs`).  The Rust code is shallowly embedded: `i32` values become
`Int`, `usize` values become `Nat` (all the verified paths keep them in
range, which is recorded as hypotheses where it matters), `Vec` becomes
`List`, and `HashMap` becomes an association list keyed by the dense
sequence id (sequence names and ids are in bijection through the
sequence index, so keying by id is equivalent to keying by name).
`f64` arithmetic (used only for the proportional target rescaling in
`subtract_masked_regions` and the identity ratios of `output_results_paf`)
is modelled by exact rational arithmetic with truncation toward zero for
the `as i32` casts.
-/

namespace Impg

/-- Mirrors `coitrees::Interval<u32>`: `i32` endpoints `first`/`last` plus a
sequence-id payload `metadata`.  `first > last` encodes reverse strand. -/
structure Iv where
  first : Int
  last : Int
  metadata : Nat
deriving DecidableEq, Repr

/-- Mirrors `impg::impg::CigarOp` as the pair of its accessors `len()` and
`op()`. -/
structure CigOp where
  len : Nat
  op : Char
deriving DecidableEq, Repr

/-- One element of the `Vec<(Interval<u32>, Vec<CigarOp>, Interval<u32>)>`
that `query`/`query_transitive` return: query interval, CIGAR, target
interval. -/
structure Overlap where
  q : Iv
  cigar : List CigOp
  target : Iv
deriving DecidableEq, Repr

/-- Default interval (used only to give total `List.getD` lookups). -/
def dIv : Iv := ⟨0, 0, 0⟩

/-- Default overlap (used only to give total `List.getD` lookups). -/
def dOv : Overlap := ⟨dIv, [], dIv⟩

/-- Rust `std::cmp::min(interval.first, interval.last)`. -/
def ivMin (iv : Iv) : Int := min iv.first iv.last

/-- Rust `std::cmp::max(interval.first, interval.last)`. -/
def ivMax (iv : Iv) : Int := max iv.first iv.last

/-- Total indexed access into an overlap vector. -/
def nthOv (l : List Overlap) (i : Nat) : Overlap := l.getD i dOv

/-- Replace only the `.0` component of a vector entry, as the Rust
assignments `overlaps[i].0 = ...` do. -/
def setQ (o : Overlap) (iv : Iv) : Overlap := { o with q := iv }

/-- Insert `x` into `l` after every element `y` with `le y x`; the
building block of a stable insertion sort. -/
def insertKeep {α : Type} (le : α → α → Bool) (x : α) : List α → List α
  | [] => [x]
  | y :: ys => if le y x then y :: insertKeep le x ys else x :: y :: ys

/-- Stable sort by the boolean total preorder `le`, inserting elements
left to right.  Rust's `sort_by_key` / `sort_by` are stable sorts, and a
stable sort by a total preorder is extensionally unique, so this models
them faithfully. -/
def stableSort {α : Type} (le : α → α → Bool) (l : List α) : List α :=
  l.foldl (fun acc x => insertKeep le x acc) []

theorem mem_insertKeep {α : Type} (le : α → α → Bool) (x : α)
    (l : List α) (a : α) : a ∈ insertKeep le x l ↔ a = x ∨ a ∈ l := by
  induction l with
  | nil => simp [insertKeep]
  | cons y ys ih =>
    simp only [insertKeep]
    by_cases h : le y x
    · simp only [if_pos h, List.mem_cons, ih]
      tauto
    · simp [if_neg h]

theorem insertKeep_perm {α : Type} (le : α → α → Bool) (x : α)
    (l : List α) : (insertKeep le x l).Perm (x :: l) := by
  induction l with
  | nil => simp [insertKeep]
  | cons y ys ih =>
    simp only [insertKeep]
    by_cases h : le y x
    · rw [if_pos h]
      exact (ih.cons y).trans (List.Perm.swap x y ys)
    · rw [if_neg h]

theorem stableSort_perm {α : Type} (le : α → α → Bool) (l : List α) :
    (stableSort le l).Perm l := by
  suffices h : ∀ acc : List α,
      (l.foldl (fun acc x => insertKeep le x acc) acc).Perm (acc ++ l) by
    simpa using h []
  induction l with
  | nil => simp
  | cons x xs ih =>
    intro acc
    simp only [List.foldl_cons]
    refine (ih (insertKeep le x acc)).trans ?_
    have h1 : (insertKeep le x acc ++ xs).Perm ((x :: acc) ++ xs) :=
      (insertKeep_perm le x acc).append_right xs
    refine h1.trans ?_
    simpa using List.perm_middle.symm

theorem length_stableSort {α : Type} (le : α → α → Bool) (l : List α) :
    (stableSort le l).length = l.length :=
  (stableSort_perm le l).length_eq

theorem pairwise_insertKeep {α : Type} (le : α → α → Bool)
    (htot : ∀ a b, le a b = true ∨ le b a = true)
    (htr : ∀ a b c, le a b = true → le b c = true → le a c = true)
    (x : α) (l : List α) (h : l.Pairwise (fun a b => le a b = true)) :
    (insertKeep le x l).Pairwise (fun a b => le a b = true) := by
  induction l with
  | nil => simp [insertKeep]
  | cons y ys ih =>
    simp only [insertKeep]
    rcases List.pairwise_cons.mp h with ⟨hy, hys⟩
    by_cases hle : le y x
    · rw [if_pos hle]
      refine List.pairwise_cons.mpr ⟨?_, ih hys⟩
      intro b hb
      rcases (mem_insertKeep le x ys b).mp hb with hb | hb
      · rw [hb]
        exact hle
      · exact hy b hb
    · rw [if_neg hle]
      have hxy : le x y = true := by
        rcases htot x y with h1 | h1
        · exact h1
        · exact absurd h1 hle
      refine List.pairwise_cons.mpr ⟨?_, h⟩
      intro b hb
      rcases List.mem_cons.mp hb with hb | hb
      · rw [hb]
        exact hxy
      · exact htr x y b hxy (hy b hb)

theorem pairwise_stableSort {α : Type} (le : α → α → Bool)
    (htot : ∀ a b, le a b = true ∨ le b a = true)
    (htr : ∀ a b c, le a b = true → le b c = true → le a c = true)
    (l : List α) :
    (stableSort le l).Pairwise (fun a b => le a b = true) := by
  suffices h : ∀ acc : List α, acc.Pairwise (fun a b => le a b = true) →
      (l.foldl (fun acc x => insertKeep le x acc) acc).Pairwise
        (fun a b => le a b = true) by
    exact h [] (List.Pairwise.nil)
  induction l with
  | nil =>
    intro acc hacc
    simpa using hacc
  | cons x xs ih =>
    intro acc hacc
    simp only [List.foldl_cons]
    exact ih _ (pairwise_insertKeep le htot htr x acc hacc)

/-- Sort key of `main.rs:349`: `(query_interval.metadata, min(first, last))`,
as a boolean total preorder. -/
def mergeKeyLe (a b : Overlap) : Bool :=
  decide (a.q.metadata < b.q.metadata ∨
    (a.q.metadata = b.q.metadata ∧ ivMin a.q ≤ ivMin b.q))

/-- The `overlaps.sort_by_key(...)` call of `main.rs:349-352` (a stable
sort, like Rust's `sort_by_key`). -/
def sortOverlaps (l : List Overlap) : List Overlap := stableSort mergeKeyLe l

/-- Body of the `for read_idx in 1..overlaps.len()` loop of
`main.rs:357-378`.  The state is the vector together with `write_idx`
(`.2.1`) and `current_idx` (`.2.2`); the Rust locals `interval`,
`current`, `interval_min` … are inlined.  Only the `.0` (query interval)
component of a vector slot is ever assigned, exactly as in the source. -/
def mergeBody (st : List Overlap × Nat × Nat) (read : Nat) :
    List Overlap × Nat × Nat :=
  if (nthOv st.1 read).q.metadata ≠ (nthOv st.1 st.2.2).q.metadata ∨
      ivMin (nthOv st.1 read).q > ivMax (nthOv st.1 st.2.2).q + 10000 then
    (if st.2.2 ≠ st.2.1 then
      st.1.set st.2.1 (setQ (nthOv st.1 st.2.1) (nthOv st.1 st.2.2).q)
    else st.1, st.2.1 + 1, read)
  else
    (st.1.set st.2.2 (setQ (nthOv st.1 st.2.2)
      ⟨min (ivMin (nthOv st.1 st.2.2).q) (ivMin (nthOv st.1 read).q),
       max (ivMax (nthOv st.1 st.2.2).q) (ivMax (nthOv st.1 read).q),
       (nthOv st.1 st.2.2).q.metadata⟩), st.2.1, st.2.2)

/-- The whole read loop of `main.rs:357-378`, iterating `read_idx` over
`1..overlaps.len()`. -/
def mergeLoop (l : List Overlap) : List Overlap × Nat × Nat :=
  (List.range' 1 (l.length - 1)).foldl mergeBody (l, 0, 0)

/-- Lines `main.rs:380-386`: flush the last merged interval and truncate to
`write_idx + 1` entries. -/
def mergeFinish (st : List Overlap × Nat × Nat) : List Overlap :=
  (if st.2.2 ≠ st.2.1 then
    st.1.set st.2.1 (setQ (nthOv st.1 st.2.1) (nthOv st.1 st.2.2).q)
  else st.1).take (st.2.1 + 1)

/-- The near-merge step of `partition_alignments`, `main.rs:348-387`
(guarded by `if !overlaps.is_empty()`). -/
def partitionMerge (overlaps : List Overlap) : List Overlap :=
  if overlaps.isEmpty then overlaps
  else mergeFinish (mergeLoop (sortOverlaps overlaps))

/-- Stated from the claim/spec words for claim C1: greedy left-to-right
merge of the sorted query intervals; two adjacent intervals are merged
exactly when they lie on the same query sequence and the later interval's
min endpoint is at most the current interval's max endpoint plus 10000,
the merged interval spanning from the min of the two min endpoints to the
max of the two max endpoints. -/
def specMergeRun (cur : Iv) : List Iv → List Iv
  | [] => [cur]
  | iv :: rest =>
    if iv.metadata = cur.metadata ∧ ivMin iv ≤ ivMax cur + 10000 then
      specMergeRun
        ⟨min (ivMin cur) (ivMin iv), max (ivMax cur) (ivMax iv), cur.metadata⟩
        rest
    else cur :: specMergeRun iv rest

/-- Stated from the claim/spec words for claim C1 (empty/nonempty split). -/
def specMergeNear : List Iv → List Iv
  | [] => []
  | iv :: rest => specMergeRun iv rest

/-- Groups/accumulator form of `specMergeRun`, used in the refinement
proof: returns the closed groups and the still-open accumulated interval. -/
def specMergeRunAcc (cur : Iv) : List Iv → List Iv × Iv
  | [] => ([], cur)
  | iv :: rest =>
    if iv.metadata = cur.metadata ∧ ivMin iv ≤ ivMax cur + 10000 then
      specMergeRunAcc
        ⟨min (ivMin cur) (ivMin iv), max (ivMax cur) (ivMax iv), cur.metadata⟩
        rest
    else
      let p := specMergeRunAcc iv rest
      (cur :: p.1, p.2)

theorem specMergeRun_eq_acc (cur : Iv) (l : List Iv) :
    specMergeRun cur l =
      (specMergeRunAcc cur l).1 ++ [(specMergeRunAcc cur l).2] := by
  induction l generalizing cur with
  | nil => simp [specMergeRun, specMergeRunAcc]
  | cons iv rest ih =>
    simp only [specMergeRun, specMergeRunAcc]
    by_cases h : iv.metadata = cur.metadata ∧ ivMin iv ≤ ivMax cur + 10000
    · simp [h, ih]
    · simp [h, ih]

theorem specMergeRunAcc_append (cur : Iv) (xs : List Iv) (x : Iv) :
    specMergeRunAcc cur (xs ++ [x]) =
      (if x.metadata = (specMergeRunAcc cur xs).2.metadata ∧
          ivMin x ≤ ivMax (specMergeRunAcc cur xs).2 + 10000 then
        ((specMergeRunAcc cur xs).1,
         ⟨min (ivMin (specMergeRunAcc cur xs).2) (ivMin x),
          max (ivMax (specMergeRunAcc cur xs).2) (ivMax x),
          (specMergeRunAcc cur xs).2.metadata⟩)
      else
        ((specMergeRunAcc cur xs).1 ++ [(specMergeRunAcc cur xs).2], x)) := by
  induction xs generalizing cur with
  | nil => simp [specMergeRunAcc]
  | cons y ys ih =>
    simp only [List.cons_append, specMergeRunAcc]
    by_cases h : y.metadata = cur.metadata ∧ ivMin y ≤ ivMax cur + 10000
    · simp only [if_pos h]
      exact ih _
    · simp only [if_neg h, List.append_eq]
      rw [ih]
      by_cases h2 : x.metadata = (specMergeRunAcc y ys).2.metadata ∧
          ivMin x ≤ ivMax (specMergeRunAcc y ys).2 + 10000
      · simp only [if_pos h2]
      · simp only [if_neg h2]
        simp

theorem nthOv_set_self {l : List Overlap} {i : Nat} (h : i < l.length)
    (v : Overlap) : nthOv (l.set i v) i = v := by
  simp [nthOv, List.getD_eq_getElem?_getD, List.getElem?_set_self h]

theorem nthOv_set_ne {l : List Overlap} {i j : Nat} (h : i ≠ j)
    (v : Overlap) : nthOv (l.set i v) j = nthOv l j := by
  simp [nthOv, List.getD_eq_getElem?_getD, List.getElem?_set_ne h]

theorem nthOv_eq_getElem {l : List Overlap} {i : Nat} (h : i < l.length) :
    nthOv l i = l[i] := by
  simp [nthOv, List.getD_eq_getElem?_getD, List.getElem?_eq_getElem h]

/-- The query intervals of the elements at sorted positions `1..r`. -/
def tailQs (s : List Overlap) (r : Nat) : List Iv :=
  ((s.drop 1).take r).map (fun o => o.q)

theorem tailQs_succ (s : List Overlap) (r : Nat) (hr : r + 1 < s.length) :
    tailQs s (r + 1) = tailQs s r ++ [(nthOv s (r + 1)).q] := by
  unfold tailQs
  rw [List.take_succ]
  have h1 : (s.drop 1)[r]? = some (nthOv s (r + 1)) := by
    rw [List.getElem?_drop]
    have h2 : 1 + r = r + 1 := by omega
    rw [h2, List.getElem?_eq_getElem hr, nthOv_eq_getElem hr]
  rw [h1]
  simp

/-- Invariant of the in-place merge loop after the reads `1..r` have been
processed: `write_idx` counts the groups already closed by the greedy
grouping of the first `r + 1` sorted elements, positions below `write_idx`
hold the closed groups' merged query intervals, position `current_idx`
holds the open accumulated interval, positions beyond `r` are untouched,
and no CIGAR or target component has moved anywhere. -/
def MergeInv (s : List Overlap) (r : Nat) : List Overlap × Nat × Nat → Prop
  | (l, w, c) =>
    l.length = s.length ∧
    w = (specMergeRunAcc (nthOv s 0).q (tailQs s r)).1.length ∧
    w ≤ c ∧ c ≤ r ∧
    (∀ i, i < w →
      (nthOv l i).q = (specMergeRunAcc (nthOv s 0).q (tailQs s r)).1.getD i dIv) ∧
    (nthOv l c).q = (specMergeRunAcc (nthOv s 0).q (tailQs s r)).2 ∧
    (∀ i, r < i → nthOv l i = nthOv s i) ∧
    (∀ i, (nthOv l i).cigar = (nthOv s i).cigar ∧
      (nthOv l i).target = (nthOv s i).target)

theorem mergeInv_zero (s : List Overlap) : MergeInv s 0 (s, 0, 0) := by
  refine ⟨rfl, by simp [tailQs, specMergeRunAcc], le_refl _, le_refl _,
    fun i hi => absurd hi (by omega), by simp [tailQs, specMergeRunAcc],
    fun i _ => rfl, fun i => ⟨rfl, rfl⟩⟩

theorem mergeBody_inv (s : List Overlap) (r : Nat)
    (st : List Overlap × Nat × Nat) (hr : r + 1 < s.length)
    (h : MergeInv s r st) : MergeInv s (r + 1) (mergeBody st (r + 1)) := by
  obtain ⟨l, w, c⟩ := st
  obtain ⟨hlen, hw, hwc, hcr, hclosed, hcur, huntouched, hct⟩ := h
  set p := specMergeRunAcc (nthOv s 0).q (tailQs s r) with hp
  set x := (nthOv s (r + 1)).q with hx
  have hread : nthOv l (r + 1) = nthOv s (r + 1) := huntouched _ (by omega)
  have hsucc : specMergeRunAcc (nthOv s 0).q (tailQs s (r + 1)) =
      (if x.metadata = p.2.metadata ∧ ivMin x ≤ ivMax p.2 + 10000 then
        (p.1, ⟨min (ivMin p.2) (ivMin x), max (ivMax p.2) (ivMax x),
          p.2.metadata⟩)
      else (p.1 ++ [p.2], x)) := by
    rw [tailQs_succ s r hr, specMergeRunAcc_append]
  have hcwlt : c < l.length := by omega
  have hwlt : w < l.length := by omega
  by_cases hcond : x.metadata = p.2.metadata ∧ ivMin x ≤ ivMax p.2 + 10000
  · -- merge branch of the Rust loop
    have hcond' : ¬((nthOv l (r + 1)).q.metadata ≠ (nthOv l c).q.metadata ∨
        ivMin (nthOv l (r + 1)).q > ivMax (nthOv l c).q + 10000) := by
      rw [hread, hcur, ← hx]
      push_neg
      exact ⟨hcond.1, hcond.2⟩
    have hbody : mergeBody (l, w, c) (r + 1) =
        (l.set c (setQ (nthOv l c)
          ⟨min (ivMin p.2) (ivMin x), max (ivMax p.2) (ivMax x),
           p.2.metadata⟩), w, c) := by
      simp only [mergeBody]
      rw [if_neg hcond']
      rw [hread, hcur, ← hx]
    rw [hbody]
    have hp' : specMergeRunAcc (nthOv s 0).q (tailQs s (r + 1)) =
        (p.1, ⟨min (ivMin p.2) (ivMin x), max (ivMax p.2) (ivMax x),
          p.2.metadata⟩) := by
      rw [hsucc, if_pos hcond]
    refine ⟨by simp [hlen], by rw [hp']; exact hw, hwc, by omega,
      ?_, ?_, ?_, ?_⟩
    · intro i hi
      rw [hp']
      rw [nthOv_set_ne (by omega)]
      exact hclosed i hi
    · rw [hp', nthOv_set_self hcwlt]
      rfl
    · intro i hi
      rw [nthOv_set_ne (by omega)]
      exact huntouched i (by omega)
    · intro i
      by_cases hic : i = c
      · subst hic
        rw [nthOv_set_self hcwlt]
        exact hct i
      · rw [nthOv_set_ne (Ne.symm hic)]
        exact hct i
  · -- close-group branch of the Rust loop
    have hcond' : (nthOv l (r + 1)).q.metadata ≠ (nthOv l c).q.metadata ∨
        ivMin (nthOv l (r + 1)).q > ivMax (nthOv l c).q + 10000 := by
      rw [hread, hcur, ← hx]
      rcases not_and_or.mp hcond with h | h
      · exact Or.inl h
      · exact Or.inr (lt_of_not_le h)
    have hbody : mergeBody (l, w, c) (r + 1) =
        (if c ≠ w then l.set w (setQ (nthOv l w) (nthOv l c).q) else l,
         w + 1, r + 1) := by
      simp only [mergeBody]
      rw [if_pos hcond']
    rw [hbody]
    set l2 := if c ≠ w then l.set w (setQ (nthOv l w) (nthOv l c).q) else l
      with hl2
    have hp' : specMergeRunAcc (nthOv s 0).q (tailQs s (r + 1)) =
        (p.1 ++ [p.2], x) := by
      rw [hsucc, if_neg hcond]
    have hl2len : l2.length = s.length := by
      rw [hl2]
      by_cases hcw : c ≠ w
      · rw [if_pos hcw]
        simp [hlen]
      · rw [if_neg hcw]
        exact hlen
    have hl2at : ∀ i, i ≠ w → nthOv l2 i = nthOv l i := by
      intro i hi
      rw [hl2]
      by_cases hcw : c ≠ w
      · rw [if_pos hcw, nthOv_set_ne (Ne.symm hi)]
      · rw [if_neg hcw]
    have hl2w : (nthOv l2 w).q = p.2 := by
      rw [hl2]
      by_cases hcw : c ≠ w
      · rw [if_pos hcw, nthOv_set_self hwlt]
        exact hcur
      · rw [if_neg hcw]
        have hcw2 : c = w := by omega
        rw [← hcw2]
        exact hcur
    have hl2ct : ∀ i, (nthOv l2 i).cigar = (nthOv s i).cigar ∧
        (nthOv l2 i).target = (nthOv s i).target := by
      intro i
      by_cases hi : i = w
      · rw [hi, hl2]
        by_cases hcw : c ≠ w
        · rw [if_pos hcw, nthOv_set_self hwlt]
          exact hct w
        · rw [if_neg hcw]
          exact hct w
      · rw [hl2at i hi]
        exact hct i
    refine ⟨hl2len, ?_, by omega, le_refl _, ?_, ?_, ?_, hl2ct⟩
    · rw [hp']
      simp [hw]
    · intro i hi
      rw [hp']
      by_cases hiw : i < w
      · rw [hl2at i (by omega)]
        rw [List.getD_append _ _ _ _ (by rw [← hw]; exact hiw)]
        exact hclosed i hiw
      · have hiw2 : i = w := by omega
        subst hiw2
        rw [List.getD_append_right _ _ _ _ (by rw [← hw])]
        rw [← hw]
        simp [hl2w]
    · rw [hp']
      rw [hl2at _ (by omega), hread]
    · intro i hi
      rw [hl2at i (by omega)]
      exact huntouched i (by omega)

theorem mergeLoop_inv (s : List Overlap) (hs : 0 < s.length) :
    ∀ r, r ≤ s.length - 1 →
      MergeInv s r ((List.range' 1 r).foldl mergeBody (s, 0, 0)) := by
  intro r
  induction r with
  | zero =>
    intro _
    simpa using mergeInv_zero s
  | succ r ih =>
    intro hr
    rw [List.range'_1_concat, List.foldl_append]
    have h1 : (1 : Nat) + r = r + 1 := by omega
    rw [h1]
    simp only [List.foldl_cons, List.foldl_nil]
    exact mergeBody_inv s r _ (by omega) (ih (by omega))

theorem getD_of_lt {α : Type} (l : List α) (d : α) {i : Nat}
    (h : i < l.length) : l.getD i d = l[i] := by
  simp [List.getD_eq_getElem?_getD, List.getElem?_eq_getElem h]

theorem specMergeNear_eq_acc (s : List Overlap) (hs : 0 < s.length) :
    specMergeNear (s.map (fun o => o.q)) =
      (specMergeRunAcc (nthOv s 0).q (tailQs s (s.length - 1))).1 ++
        [(specMergeRunAcc (nthOv s 0).q (tailQs s (s.length - 1))).2] := by
  cases s with
  | nil => simp at hs
  | cons s0 stail =>
    have ht : tailQs (s0 :: stail) ((s0 :: stail).length - 1) =
        stail.map (fun o => o.q) := by
      unfold tailQs
      simp [List.take_of_length_le]
    have h0 : nthOv (s0 :: stail) 0 = s0 := by
      simp [nthOv]
    simp only [List.map_cons, specMergeNear, ht, h0]
    rw [specMergeRun_eq_acc]

/-- Combined description of the finished in-place merge: the query
intervals are exactly the greedy groups, and the CIGAR/target components
are those of the sorted input at the same positions. -/
theorem mergeFinish_spec (s : List Overlap) (hpos : 0 < s.length)
    (l : List Overlap) (w c : Nat)
    (h : MergeInv s (s.length - 1) (l, w, c)) :
    (mergeFinish (l, w, c)).length = w + 1 ∧
    (mergeFinish (l, w, c)).map (fun o => o.q) =
      (specMergeRunAcc (nthOv s 0).q (tailQs s (s.length - 1))).1 ++
        [(specMergeRunAcc (nthOv s 0).q (tailQs s (s.length - 1))).2] ∧
    (mergeFinish (l, w, c)).map (fun o => (o.cigar, o.target)) =
      (s.map (fun o => (o.cigar, o.target))).take (w + 1) := by
  obtain ⟨hlen, hw, hwc, hcr, hclosed, hcur, huntouched, hct⟩ := h
  set p := specMergeRunAcc (nthOv s 0).q (tailQs s (s.length - 1)) with hp
  have hwlt : w < l.length := by omega
  have hclt : c < l.length := by omega
  have hfin : mergeFinish (l, w, c) =
      (if c ≠ w then l.set w (setQ (nthOv l w) (nthOv l c).q) else l).take
        (w + 1) := rfl
  set l2 := if c ≠ w then l.set w (setQ (nthOv l w) (nthOv l c).q) else l
    with hl2
  have hl2len : l2.length = s.length := by
    rw [hl2]
    by_cases hcw : c ≠ w
    · rw [if_pos hcw]
      simp [hlen]
    · rw [if_neg hcw]
      exact hlen
  have hl2at : ∀ i, i ≠ w → nthOv l2 i = nthOv l i := by
    intro i hi
    rw [hl2]
    by_cases hcw : c ≠ w
    · rw [if_pos hcw, nthOv_set_ne (Ne.symm hi)]
    · rw [if_neg hcw]
  have hl2w : (nthOv l2 w).q = p.2 := by
    rw [hl2]
    by_cases hcw : c ≠ w
    · rw [if_pos hcw, nthOv_set_self hwlt]
      exact hcur
    · rw [if_neg hcw]
      have hcw2 : c = w := by omega
      rw [← hcw2]
      exact hcur
  have hl2ct : ∀ i, (nthOv l2 i).cigar = (nthOv s i).cigar ∧
      (nthOv l2 i).target = (nthOv s i).target := by
    intro i
    by_cases hi : i = w
    · rw [hi, hl2]
      by_cases hcw : c ≠ w
      · rw [if_pos hcw, nthOv_set_self hwlt]
        exact hct w
      · rw [if_neg hcw]
        exact hct w
    · rw [hl2at i hi]
      exact hct i
  have hw1 : w + 1 ≤ l2.length := by omega
  have hflen : (mergeFinish (l, w, c)).length = w + 1 := by
    rw [hfin, List.length_take]
    omega
  refine ⟨hflen, ?_, ?_⟩
  · rw [hfin]
    refine List.ext_getElem ?_ ?_
    · rw [List.length_map, List.length_take]
      simp [hw]
      omega
    · intro n h1 h2
      have h1' : n < w + 1 := by
        rw [List.length_map, List.length_take] at h1
        omega
      have hnl2 : n < l2.length := by omega
      rw [List.getElem_map, List.getElem_take, ← nthOv_eq_getElem hnl2]
      by_cases hnw : n < w
      · rw [hl2at n (by omega), hclosed n hnw]
        have hnp : n < p.1.length := by omega
        rw [getD_of_lt _ _ hnp, List.getElem_append_left hnp]
      · have hnw2 : n = w := by omega
        subst hnw2
        rw [hl2w, List.getElem_append_right (by omega)]
        simp [hw]
  · rw [hfin]
    refine List.ext_getElem ?_ ?_
    · rw [List.length_map, List.length_take, List.length_take,
        List.length_map, hl2len]
    · intro n h1 h2
      have h1' : n < w + 1 := by
        rw [List.length_map, List.length_take] at h1
        omega
      have hnl2 : n < l2.length := by omega
      have hns : n < s.length := by omega
      rw [List.getElem_map, List.getElem_take, List.getElem_take,
        List.getElem_map, ← nthOv_eq_getElem hnl2, ← nthOv_eq_getElem hns]
      rw [(hl2ct n).1, (hl2ct n).2]

/-- The query intervals produced by the in-place loop of
`main.rs:348-387` are exactly those of the greedy merge `specMergeNear`
applied to the sorted input. -/
theorem partitionMerge_q_eq (ovs : List Overlap) :
    (partitionMerge ovs).map (fun o => o.q) =
      specMergeNear ((sortOverlaps ovs).map (fun o => o.q)) := by
  by_cases hemp : ovs.isEmpty = true
  · rw [List.isEmpty_iff] at hemp
    subst hemp
    simp [partitionMerge, sortOverlaps, specMergeNear, stableSort]
  · rw [partitionMerge, if_neg hemp]
    set s := sortOverlaps ovs with hsdef
    have hlen : s.length = ovs.length := length_stableSort mergeKeyLe ovs
    have hpos : 0 < s.length := by
      rw [hlen]
      cases ovs
      · simp at hemp
      · simp
    have hinv : MergeInv s (s.length - 1) (mergeLoop s) :=
      mergeLoop_inv s hpos (s.length - 1) (le_refl _)
    rcases hloop : mergeLoop s with ⟨l, w, c⟩
    rw [hloop] at hinv
    have hspec := mergeFinish_spec s hpos l w c hinv
    rw [hspec.2.1, specMergeNear_eq_acc s hpos]

/-- Claim C1: in the near-merge step, after sorting overlaps by
(query sequence id, min(first, last)), two adjacent overlaps are merged
if and only if they lie on the same query sequence and the later
interval's min endpoint is at most the current (accumulated) interval's
max endpoint plus 10000; the merged query interval spans from the minimum
of the min endpoints to the maximum of the max endpoints, and overlaps on
different sequences or with a larger gap are never merged.  This is
stated as: the query intervals produced by the in-place loop of
`main.rs:348-387` are exactly those of the greedy merge `specMergeNear`
written from the claim's words, applied to the sorted input. -/
theorem near_merge_refines_spec (ovs : List Overlap) :
    (partitionMerge ovs).map (fun o => o.q) =
      specMergeNear ((sortOverlaps ovs).map (fun o => o.q)) :=
  partitionMerge_q_eq ovs

/-- Claim C2, amended: after the near-merge, the k-th output entry keeps
the CIGAR and target interval of the k-th overlap of the sorted input
(the overlap sitting at the write position), not those of the first
contributor of the k-th merged group. -/
theorem near_merge_cigar_target_by_position (ovs : List Overlap) :
    (partitionMerge ovs).map (fun o => (o.cigar, o.target)) =
      ((sortOverlaps ovs).map (fun o => (o.cigar, o.target))).take
        (partitionMerge ovs).length := by
  by_cases hemp : ovs.isEmpty = true
  · rw [List.isEmpty_iff] at hemp
    subst hemp
    simp [partitionMerge, sortOverlaps, stableSort]
  · rw [partitionMerge, if_neg hemp]
    set s := sortOverlaps ovs with hsdef
    have hlen : s.length = ovs.length := length_stableSort mergeKeyLe ovs
    have hpos : 0 < s.length := by
      rw [hlen]
      cases ovs
      · simp at hemp
      · simp
    have hinv : MergeInv s (s.length - 1) (mergeLoop s) :=
      mergeLoop_inv s hpos (s.length - 1) (le_refl _)
    rcases hloop : mergeLoop s with ⟨l, w, c⟩
    rw [hloop] at hinv
    have hspec := mergeFinish_spec s hpos l w c hinv
    rw [hspec.1, hspec.2.2]

/-- Counterexample to claim C2 as stated.  Three overlaps on one query
sequence: the first two merge into one group, the third is a group of its
own.  The output entry whose query interval is that of the second group
carries the CIGAR `[2X]` and target `(200,215)` of the overlap at write
position 1 — an overlap belonging to the FIRST group — instead of the
CIGAR `[3D]` and target `(300,310)` of its own group's first (and only)
contributor. -/
theorem near_merge_cigar_counterexample :
    partitionMerge
      [⟨⟨0, 10, 0⟩, [⟨1, 'M'⟩], ⟨100, 110, 7⟩⟩,
       ⟨⟨5, 20, 0⟩, [⟨2, 'X'⟩], ⟨200, 215, 7⟩⟩,
       ⟨⟨40000, 50000, 0⟩, [⟨3, 'D'⟩], ⟨300, 310, 7⟩⟩] =
      [⟨⟨0, 20, 0⟩, [⟨1, 'M'⟩], ⟨100, 110, 7⟩⟩,
       ⟨⟨40000, 50000, 0⟩, [⟨2, 'X'⟩], ⟨200, 215, 7⟩⟩] ∧
    ([⟨2, 'X'⟩] : List CigOp) ≠ [⟨3, 'D'⟩] := by
  refine ⟨by decide, by decide⟩

/-! ### `merge_ranges` (`main.rs:629-654`) and the range-set machinery -/

/-- Boolean order of `ranges.sort_by_key(|&(start, _)| start)`,
`main.rs:635`. -/
def rangeStartLe (a b : Nat × Nat) : Bool := decide (a.1 ≤ b.1)

/-- The merging loop of `merge_ranges`, `main.rs:638-651`: ranges whose
start is at most `current.1 + 1` are merged into `current` by taking the
max of the ends. -/
def mergeRangesGo (current : Nat × Nat) : List (Nat × Nat) → List (Nat × Nat)
  | [] => [current]
  | r :: rest =>
    if r.1 ≤ current.2 + 1 then mergeRangesGo (current.1, max current.2 r.2) rest
    else current :: mergeRangesGo r rest

/-- Whole `merge_ranges`, `main.rs:629-654`: early return on empty input,
sort by start, then greedy merging of overlapping or gap-1-adjacent
ranges. -/
def merge_ranges (ranges : List (Nat × Nat)) : List (Nat × Nat) :=
  match stableSort rangeStartLe ranges with
  | [] => []
  | r :: rs => mergeRangesGo r rs

/-- The integer positions covered by a list of half-open ranges. -/
def covers (rs : List (Nat × Nat)) (x : Nat) : Prop :=
  ∃ r ∈ rs, r.1 ≤ x ∧ x < r.2

instance coversDecidable (rs : List (Nat × Nat)) (x : Nat) :
    Decidable (covers rs x) := by
  unfold covers
  infer_instance

/-- Position covered by the ranges, or pinched between two covered
neighbours (which is exactly what gap-1 adjacency merging adds). -/
def pcovers (rs : List (Nat × Nat)) (x : Nat) : Prop :=
  covers rs x ∨ (1 ≤ x ∧ covers rs (x - 1) ∧ covers rs (x + 1))

theorem covers_nil (x : Nat) : ¬covers [] x := by
  simp [covers]

theorem covers_cons (r : Nat × Nat) (rs : List (Nat × Nat)) (x : Nat) :
    covers (r :: rs) x ↔ (r.1 ≤ x ∧ x < r.2) ∨ covers rs x := by
  simp [covers]

theorem covers_append (a b : List (Nat × Nat)) (x : Nat) :
    covers (a ++ b) x ↔ covers a x ∨ covers b x := by
  simp [covers, or_and_right, exists_or]

theorem covers_of_perm {a b : List (Nat × Nat)} (h : a.Perm b) (x : Nat) :
    covers a x ↔ covers b x := by
  unfold covers
  constructor
  · rintro ⟨r, hr, hx⟩
    exact ⟨r, h.mem_iff.mp hr, hx⟩
  · rintro ⟨r, hr, hx⟩
    exact ⟨r, h.mem_iff.mpr hr, hx⟩

/-- Every range produced by the merging loop starts no earlier than
`current` (under the sortedness of the input tail). -/
theorem mergeRangesGo_start (current : Nat × Nat) (rest : List (Nat × Nat))
    (hs : (current :: rest).Pairwise (fun a b => a.1 ≤ b.1)) :
    ∀ r ∈ mergeRangesGo current rest, current.1 ≤ r.1 := by
  induction rest generalizing current with
  | nil =>
    intro r hr
    simp only [mergeRangesGo, List.mem_singleton] at hr
    rw [hr]
  | cons y ys ih =>
    intro r hr
    rcases List.pairwise_cons.mp hs with ⟨hcy, hys⟩
    simp only [mergeRangesGo] at hr
    by_cases hm : y.1 ≤ current.2 + 1
    · rw [if_pos hm] at hr
      have hps : ((current.1, max current.2 y.2) :: ys).Pairwise
          (fun a b => a.1 ≤ b.1) := by
        refine List.pairwise_cons.mpr ⟨?_, (List.pairwise_cons.mp hys).2⟩
        intro b hb
        exact hcy b (List.mem_cons_of_mem y hb)
      exact ih _ hps r hr
    · rw [if_neg hm] at hr
      rcases List.mem_cons.mp hr with hr | hr
      · rw [hr]
      · exact le_trans (hcy y (List.mem_cons_self y ys)) (ih y hys r hr)

/-- The merging loop only produces nonempty ranges when fed nonempty
ones. -/
theorem mergeRangesGo_nonempty (current : Nat × Nat)
    (rest : List (Nat × Nat)) (hcur : current.1 < current.2)
    (hne : ∀ r ∈ rest, r.1 < r.2) :
    ∀ r ∈ mergeRangesGo current rest, r.1 < r.2 := by
  induction rest generalizing current with
  | nil =>
    intro r hr
    simp only [mergeRangesGo, List.mem_singleton] at hr
    rw [hr]
    exact hcur
  | cons y ys ih =>
    intro r hr
    simp only [mergeRangesGo] at hr
    by_cases hm : y.1 ≤ current.2 + 1
    · rw [if_pos hm] at hr
      refine ih _ ?_ (fun r hr => hne r (List.mem_cons_of_mem y hr)) r hr
      simp only
      omega
    · rw [if_neg hm] at hr
      rcases List.mem_cons.mp hr with hr | hr
      · rw [hr]
        exact hcur
      · exact ih y (hne y (List.mem_cons_self y ys))
          (fun r hr => hne r (List.mem_cons_of_mem y hr)) r hr

/-- Separation of the merging loop's output: consecutive output ranges
have a gap of at least 2 (no overlap, no gap-1 adjacency), and in
particular are sorted by start. -/
theorem mergeRangesGo_sep (current : Nat × Nat) (rest : List (Nat × Nat))
    (hs : (current :: rest).Pairwise (fun a b => a.1 ≤ b.1)) :
    (mergeRangesGo current rest).Pairwise (fun a b => a.2 + 1 < b.1) := by
  induction rest generalizing current with
  | nil => simp [mergeRangesGo]
  | cons y ys ih =>
    rcases List.pairwise_cons.mp hs with ⟨hcy, hys⟩
    simp only [mergeRangesGo]
    by_cases hm : y.1 ≤ current.2 + 1
    · rw [if_pos hm]
      refine ih _ ?_
      refine List.pairwise_cons.mpr ⟨?_, (List.pairwise_cons.mp hys).2⟩
      intro b hb
      exact hcy b (List.mem_cons_of_mem y hb)
    · rw [if_neg hm]
      refine List.pairwise_cons.mpr ⟨?_, ih y hys⟩
      intro b hb
      have hyb := mergeRangesGo_start y ys hys b hb
      omega

theorem covers_tail_lb (y : Nat × Nat) (ys : List (Nat × Nat))
    (hys : (y :: ys).Pairwise (fun a b => a.1 ≤ b.1)) (z : Nat)
    (h : covers (y :: ys) z) : y.1 ≤ z := by
  rcases h with ⟨r, hr, hz1, hz2⟩
  rcases List.mem_cons.mp hr with hr | hr
  · rw [hr] at hz1
    exact hz1
  · exact le_trans ((List.pairwise_cons.mp hys).1 r hr) hz1

/-- Union of the merging loop's output: a position is covered exactly
when it is covered by the input or pinched between two covered
neighbours (the single gap position swallowed by a gap-1 merge). -/
theorem mergeRangesGo_covers (current : Nat × Nat) (rest : List (Nat × Nat))
    (hs : (current :: rest).Pairwise (fun a b => a.1 ≤ b.1))
    (hne : ∀ r ∈ current :: rest, r.1 < r.2) (x : Nat) :
    covers (mergeRangesGo current rest) x ↔ pcovers (current :: rest) x := by
  induction rest generalizing current with
  | nil =>
    simp only [mergeRangesGo]
    unfold pcovers
    constructor
    · intro h
      exact Or.inl h
    · rintro (h | ⟨hx, h1, h2⟩)
      · exact h
      · rcases h1 with ⟨r, hr, ha, hb⟩
        rcases h2 with ⟨r2, hr2, ha2, hb2⟩
        rw [List.mem_singleton] at hr hr2
        rw [hr] at ha hb
        rw [hr2] at ha2 hb2
        exact ⟨current, List.mem_singleton_self current, by omega, by omega⟩
  | cons y ys ih =>
    rcases List.pairwise_cons.mp hs with ⟨hcy, hys⟩
    have hnc : current.1 < current.2 := hne current (List.mem_cons_self _ _)
    have hny : y.1 < y.2 := hne y (List.mem_cons_of_mem _ (List.mem_cons_self _ _))
    simp only [mergeRangesGo]
    by_cases hm : y.1 ≤ current.2 + 1
    · rw [if_pos hm]
      have hsn : ((current.1, max current.2 y.2) :: ys).Pairwise
          (fun a b => a.1 ≤ b.1) := by
        refine List.pairwise_cons.mpr ⟨?_, (List.pairwise_cons.mp hys).2⟩
        intro b hb
        exact hcy b (List.mem_cons_of_mem y hb)
      have hnn : ∀ r ∈ (current.1, max current.2 y.2) :: ys, r.1 < r.2 := by
        intro r hr
        rcases List.mem_cons.mp hr with hr | hr
        · rw [hr]
          simp only
          omega
        · exact hne r (List.mem_cons_of_mem _ (List.mem_cons_of_mem _ hr))
      rw [ih _ hsn hnn]
      have hcy1 : current.1 ≤ y.1 := hcy y (List.mem_cons_self y ys)
      have hmono : ∀ z, covers (current :: y :: ys) z →
          covers ((current.1, max current.2 y.2) :: ys) z := by
        intro z hz
        rcases (covers_cons _ _ _).mp hz with hz | hz
        · exact (covers_cons _ _ _).mpr (Or.inl (by simp only; omega))
        · rcases (covers_cons _ _ _).mp hz with hz | hz
          · exact (covers_cons _ _ _).mpr (Or.inl (by simp only; omega))
          · exact (covers_cons _ _ _).mpr (Or.inr hz)
      have hback : ∀ z, covers ((current.1, max current.2 y.2) :: ys) z →
          covers (current :: y :: ys) z ∨
            (1 ≤ z ∧ covers (current :: y :: ys) (z - 1) ∧
              covers (current :: y :: ys) (z + 1)) := by
        intro z hz
        rcases (covers_cons _ _ _).mp hz with hz | hz
        · simp only at hz
          by_cases hz1 : z < current.2
          · exact Or.inl ((covers_cons _ _ _).mpr (Or.inl ⟨hz.1, hz1⟩))
          · by_cases hz2 : y.1 ≤ z
            · refine Or.inl ((covers_cons _ _ _).mpr (Or.inr
                ((covers_cons _ _ _).mpr (Or.inl ⟨hz2, by omega⟩))))
            · refine Or.inr ⟨by omega, ?_, ?_⟩
              · exact (covers_cons _ _ _).mpr (Or.inl ⟨by omega, by omega⟩)
              · refine (covers_cons _ _ _).mpr (Or.inr
                  ((covers_cons _ _ _).mpr (Or.inl ⟨by omega, by omega⟩)))
        · exact Or.inl ((covers_cons _ _ _).mpr (Or.inr
            ((covers_cons _ _ _).mpr (Or.inr hz))))
      unfold pcovers
      constructor
      · rintro (hc | ⟨hx1, hl, hr⟩)
        · rcases hback x hc with h | h
          · exact Or.inl h
          · exact Or.inr h
        · rcases hback (x - 1) hl with h1 | h1
          · rcases hback (x + 1) hr with h2 | h2
            · exact Or.inr ⟨hx1, h1, h2⟩
            · rcases h2 with ⟨-, h2a, -⟩
              left
              simpa using h2a
          · rcases h1 with ⟨hgt, -, h1b⟩
            left
            have hxx : x - 1 + 1 = x := by omega
            rwa [hxx] at h1b
      · rintro (hc | ⟨hx1, hl, hr⟩)
        · exact Or.inl (hmono x hc)
        · exact Or.inr ⟨hx1, hmono _ hl, hmono _ hr⟩
    · rw [if_neg hm]
      rw [covers_cons, ih y hys (fun r hr => hne r (List.mem_cons_of_mem _ hr))]
      unfold pcovers
      constructor
      · rintro (hc | hsub)
        · exact Or.inl ((covers_cons _ _ _).mpr (Or.inl hc))
        · rcases hsub with hc | ⟨hx1, hl, hr⟩
          · exact Or.inl ((covers_cons _ _ _).mpr (Or.inr hc))
          · exact Or.inr ⟨hx1, (covers_cons _ _ _).mpr (Or.inr hl),
              (covers_cons _ _ _).mpr (Or.inr hr)⟩
      · rintro (hc | ⟨hx1, hl, hr⟩)
        · rcases (covers_cons _ _ _).mp hc with hc | hc
          · exact Or.inl hc
          · exact Or.inr (Or.inl hc)
        · rcases (covers_cons _ _ _).mp hl with hl | hl
          · rcases (covers_cons _ _ _).mp hr with hr | hr
            · exact Or.inl (by omega)
            · have := covers_tail_lb y ys hys (x + 1) hr
              omega
          · rcases (covers_cons _ _ _).mp hr with hr | hr
            · have := covers_tail_lb y ys hys (x - 1) hl
              omega
            · exact Or.inr (Or.inr ⟨hx1, hl, hr⟩)

theorem rangeStartLe_total (a b : Nat × Nat) :
    rangeStartLe a b = true ∨ rangeStartLe b a = true := by
  simp only [rangeStartLe, decide_eq_true_eq]
  omega

theorem rangeStartLe_trans (a b c : Nat × Nat) (h1 : rangeStartLe a b = true)
    (h2 : rangeStartLe b c = true) : rangeStartLe a c = true := by
  simp only [rangeStartLe, decide_eq_true_eq] at *
  omega

theorem sortRanges_sorted (l : List (Nat × Nat)) :
    (stableSort rangeStartLe l).Pairwise (fun a b => a.1 ≤ b.1) := by
  have h := pairwise_stableSort rangeStartLe rangeStartLe_total
    rangeStartLe_trans l
  exact h.imp (fun hab => by
    simpa [rangeStartLe, decide_eq_true_eq] using hab)

theorem merge_ranges_sep (ranges : List (Nat × Nat)) :
    (merge_ranges ranges).Pairwise (fun a b => a.2 + 1 < b.1) := by
  unfold merge_ranges
  cases hsort : stableSort rangeStartLe ranges with
  | nil => simp
  | cons r rs =>
    have hsorted := sortRanges_sorted ranges
    rw [hsort] at hsorted
    exact mergeRangesGo_sep r rs hsorted

theorem merge_ranges_nonempty (ranges : List (Nat × Nat))
    (hne : ∀ r ∈ ranges, r.1 < r.2) :
    ∀ r ∈ merge_ranges ranges, r.1 < r.2 := by
  unfold merge_ranges
  cases hsort : stableSort rangeStartLe ranges with
  | nil => simp
  | cons r rs =>
    have hp := stableSort_perm rangeStartLe ranges
    rw [hsort] at hp
    have hne' : ∀ q ∈ r :: rs, q.1 < q.2 := fun q hq => hne q (hp.mem_iff.mp hq)
    exact mergeRangesGo_nonempty r rs (hne' r (List.mem_cons_self _ _))
      (fun q hq => hne' q (List.mem_cons_of_mem _ hq))

theorem merge_ranges_covers (ranges : List (Nat × Nat))
    (hne : ∀ r ∈ ranges, r.1 < r.2) (x : Nat) :
    covers (merge_ranges ranges) x ↔ pcovers ranges x := by
  unfold merge_ranges
  cases hsort : stableSort rangeStartLe ranges with
  | nil =>
    have hp := stableSort_perm rangeStartLe ranges
    rw [hsort] at hp
    have hnil : ranges = [] := hp.symm.eq_nil
    subst hnil
    simp [covers, pcovers]
  | cons r rs =>
    have hp := stableSort_perm rangeStartLe ranges
    rw [hsort] at hp
    have hsorted := sortRanges_sorted ranges
    rw [hsort] at hsorted
    have hne' : ∀ q ∈ r :: rs, q.1 < q.2 := fun q hq => hne q (hp.mem_iff.mp hq)
    rw [mergeRangesGo_covers r rs hsorted hne' x]
    unfold pcovers
    rw [covers_of_perm hp, covers_of_perm hp, covers_of_perm hp]

theorem mergeRangesGo_ne_nil (current : Nat × Nat)
    (rest : List (Nat × Nat)) : mergeRangesGo current rest ≠ [] := by
  induction rest generalizing current with
  | nil => simp [mergeRangesGo]
  | cons y ys ih =>
    simp only [mergeRangesGo]
    by_cases hm : y.1 ≤ current.2 + 1
    · rw [if_pos hm]
      exact ih _
    · rw [if_neg hm]
      simp

theorem merge_ranges_eq_nil_iff (ranges : List (Nat × Nat)) :
    merge_ranges ranges = [] ↔ ranges = [] := by
  unfold merge_ranges
  cases hsort : stableSort rangeStartLe ranges with
  | nil =>
    have hp := stableSort_perm rangeStartLe ranges
    rw [hsort] at hp
    simp [hp.symm.eq_nil]
  | cons r rs =>
    have hp := stableSort_perm rangeStartLe ranges
    rw [hsort] at hp
    constructor
    · intro h
      exact absurd h (mergeRangesGo_ne_nil r rs)
    · intro h
      subst h
      exact absurd hp.eq_nil (by simp)

/-! ### Association lists modelling `HashMap<String, Vec<(usize, usize)>>`
(sequence names and ids are in bijection, so keys are the dense ids). -/

/-- Lookup in an association list (`HashMap::get`). -/
def lookupA {β : Type} : List (Nat × β) → Nat → Option β
  | [], _ => none
  | e :: rest, k => if e.1 = k then some e.2 else lookupA rest k

/-- Insert or replace (`HashMap::insert`, or `entry(k)` followed by
assignment). -/
def insertA {β : Type} : List (Nat × β) → Nat → β → List (Nat × β)
  | [], k, v => [(k, v)]
  | e :: rest, k, v =>
    if e.1 = k then (k, v) :: rest else e :: insertA rest k v

/-- Remove (`HashMap::remove`). -/
def removeA {β : Type} : List (Nat × β) → Nat → List (Nat × β)
  | [], _ => []
  | e :: rest, k => if e.1 = k then rest else e :: removeA rest k

/-- Push one value onto the vector at key `k`
(`map.entry(k).or_default().push(v)`). -/
def appendA : List (Nat × List (Nat × Nat)) → Nat → (Nat × Nat) →
    List (Nat × List (Nat × Nat))
  | [], k, v => [(k, [v])]
  | e :: rest, k, v =>
    if e.1 = k then (e.1, e.2 ++ [v]) :: rest else e :: appendA rest k v

theorem lookupA_insertA_self {β : Type} (m : List (Nat × β)) (k : Nat)
    (v : β) : lookupA (insertA m k v) k = some v := by
  induction m with
  | nil => simp [insertA, lookupA]
  | cons e rest ih =>
    simp only [insertA]
    by_cases h : e.1 = k
    · rw [if_pos h]
      simp [lookupA]
    · rw [if_neg h]
      simp only [lookupA, if_neg h]
      exact ih

theorem lookupA_insertA_ne {β : Type} (m : List (Nat × β)) (k k' : Nat)
    (v : β) (h : k ≠ k') : lookupA (insertA m k v) k' = lookupA m k' := by
  induction m with
  | nil => simp [insertA, lookupA, h]
  | cons e rest ih =>
    simp only [insertA]
    by_cases he : e.1 = k
    · rw [if_pos he]
      simp only [lookupA]
      rw [if_neg h, if_neg (by rw [he]; exact h)]
    · rw [if_neg he]
      simp only [lookupA]
      by_cases he' : e.1 = k'
      · rw [if_pos he', if_pos he']
      · rw [if_neg he', if_neg he']
        exact ih

theorem lookupA_removeA_ne {β : Type} (m : List (Nat × β)) (k k' : Nat)
    (h : k ≠ k') : lookupA (removeA m k) k' = lookupA m k' := by
  induction m with
  | nil => simp [removeA]
  | cons e rest ih =>
    simp only [removeA]
    by_cases he : e.1 = k
    · rw [if_pos he]
      simp only [lookupA, if_neg (he ▸ h)]
    · rw [if_neg he]
      simp only [lookupA]
      by_cases he' : e.1 = k'
      · rw [if_pos he', if_pos he']
      · rw [if_neg he', if_neg he']
        exact ih

theorem lookupA_removeA_self {β : Type} (m : List (Nat × β)) (k : Nat)
    (hnd : (m.map (fun e => e.1)).Nodup) :
    lookupA (removeA m k) k = none := by
  induction m with
  | nil => simp [removeA, lookupA]
  | cons e rest ih =>
    simp only [List.map_cons, List.nodup_cons] at hnd
    simp only [removeA]
    by_cases he : e.1 = k
    · rw [if_pos he]
      -- k does not occur among the remaining keys
      clear ih
      induction rest with
      | nil => simp [lookupA]
      | cons f fs ihf =>
        simp only [lookupA]
        by_cases hf : f.1 = k
        · exfalso
          apply hnd.1
          rw [he, ← hf]
          exact List.mem_map_of_mem (fun e => e.1) (List.mem_cons_self f fs)
        · rw [if_neg hf]
          refine ihf ?_
          constructor
          · intro hmem
            exact hnd.1 (List.mem_cons_of_mem _ hmem)
          · exact (List.nodup_cons.mp hnd.2).2
    · rw [if_neg he]
      simp only [lookupA, if_neg he]
      exact ih hnd.2

/-- Rust `(query_interval.first as usize, query_interval.last as usize)`
after the `first <= last` normalization at `main.rs:566-570` (both
endpoints are non-negative on every verified path). -/
def spanOf (iv : Iv) : Nat × Nat :=
  if iv.first ≤ iv.last then (iv.first.toNat, iv.last.toNat)
  else (iv.last.toNat, iv.first.toNat)

/-- Lines `main.rs:563-572`: group the overlaps' normalized query spans
by sequence, preserving first-seen key order and per-key span order. -/
def groupSpans (overlaps : List Overlap) : List (Nat × List (Nat × Nat)) :=
  overlaps.foldl (fun m ov => appendA m ov.q.metadata (spanOf ov.q)) []

/-- One `current_ranges` refinement step of `main.rs:591-611`: subtract a
single mask from a single range. -/
def subtractOneRange (mask r : Nat × Nat) : List (Nat × Nat) :=
  if r.2 ≤ mask.1 then [r]
  else if r.1 ≥ mask.2 then [r]
  else
    (if r.1 < mask.1 then [(r.1, mask.1)] else []) ++
    (if r.2 > mask.2 then [(mask.2, r.2)] else [])

/-- The `for (mask_start, mask_end) in masked.iter()` loop of
`main.rs:588-613`: refine the current pieces by every mask. -/
def subtractMasksFrom (masks : List (Nat × Nat)) (r : Nat × Nat) :
    List (Nat × Nat) :=
  masks.foldl (fun cur mask => cur.flatMap (subtractOneRange mask)) [r]

/-- The outer `for (miss_start, miss_end) in missing.iter()` loop of
`main.rs:585-616`. -/
def subtractAll (missing masks : List (Nat × Nat)) : List (Nat × Nat) :=
  missing.flatMap (subtractMasksFrom masks)

/-- Body of the `for (seq_name, mut ranges) in new_masks` loop of
`main.rs:575-626` for one affected sequence `e.1` with new spans `e.2`:
append the new spans to the masked ranges and re-merge; if the sequence
has missing ranges, subtract all (updated) masked ranges from them,
re-merge, and remove the sequence when nothing remains. -/
def updStep
    (mm : List (Nat × List (Nat × Nat)) × List (Nat × List (Nat × Nat)))
    (e : Nat × List (Nat × Nat)) :
    List (Nat × List (Nat × Nat)) × List (Nat × List (Nat × Nat)) :=
  match lookupA mm.2 e.1 with
  | none =>
    (insertA mm.1 e.1 (merge_ranges ((lookupA mm.1 e.1).getD [] ++ e.2)),
     mm.2)
  | some miss =>
    if merge_ranges (subtractAll miss
        (merge_ranges ((lookupA mm.1 e.1).getD [] ++ e.2))) = [] then
      (insertA mm.1 e.1 (merge_ranges ((lookupA mm.1 e.1).getD [] ++ e.2)),
       removeA mm.2 e.1)
    else
      (insertA mm.1 e.1 (merge_ranges ((lookupA mm.1 e.1).getD [] ++ e.2)),
       insertA mm.2 e.1 (merge_ranges (subtractAll miss
         (merge_ranges ((lookupA mm.1 e.1).getD [] ++ e.2)))))

/-- Whole `update_masked_and_missing_regions`, `main.rs:556-627`, on the
association-list model. -/
def update_masked_and_missing_regions
    (masked missing : List (Nat × List (Nat × Nat)))
    (overlaps : List Overlap) :
    List (Nat × List (Nat × Nat)) × List (Nat × List (Nat × Nat)) :=
  (groupSpans overlaps).foldl updStep (masked, missing)

theorem covers_flatMap (f : (Nat × Nat) → List (Nat × Nat))
    (l : List (Nat × Nat)) (x : Nat) :
    covers (l.flatMap f) x ↔ ∃ r ∈ l, covers (f r) x := by
  unfold covers
  constructor
  · rintro ⟨q, hq, hx⟩
    rcases List.mem_flatMap.mp hq with ⟨r, hr, hqr⟩
    exact ⟨r, hr, q, hqr, hx⟩
  · rintro ⟨r, hr, q, hqr, hx⟩
    exact ⟨q, List.mem_flatMap.mpr ⟨r, hr, hqr⟩, hx⟩

theorem subtractOneRange_covers (mask r : Nat × Nat) (x : Nat) :
    covers (subtractOneRange mask r) x ↔
      (r.1 ≤ x ∧ x < r.2 ∧ ¬(mask.1 ≤ x ∧ x < mask.2)) := by
  unfold subtractOneRange
  by_cases h1 : r.2 ≤ mask.1
  · rw [if_pos h1]
    simp only [covers_cons, covers_nil]
    simp [covers]
    omega
  · rw [if_neg h1]
    by_cases h2 : r.1 ≥ mask.2
    · rw [if_pos h2]
      simp [covers]
      omega
    · rw [if_neg h2]
      rw [covers_append]
      by_cases h3 : r.1 < mask.1
      · rw [if_pos h3]
        by_cases h4 : r.2 > mask.2
        · rw [if_pos h4]
          simp [covers]
          omega
        · rw [if_neg h4]
          simp [covers]
          omega
      · rw [if_neg h3]
        by_cases h4 : r.2 > mask.2
        · rw [if_pos h4]
          simp [covers]
          omega
        · rw [if_neg h4]
          simp [covers]
          omega

theorem subtractFold_covers (masks : List (Nat × Nat))
    (cur : List (Nat × Nat)) (x : Nat) :
    covers (masks.foldl (fun cur mask => cur.flatMap (subtractOneRange mask))
      cur) x ↔ covers cur x ∧ ¬covers masks x := by
  induction masks generalizing cur with
  | nil => simp [covers_nil]
  | cons m ms ih =>
    simp only [List.foldl_cons]
    rw [ih]
    rw [covers_flatMap]
    have h1 : (∃ r ∈ cur, covers (subtractOneRange m r) x) ↔
        covers cur x ∧ ¬(m.1 ≤ x ∧ x < m.2) := by
      constructor
      · rintro ⟨r, hr, hc⟩
        rcases (subtractOneRange_covers m r x).mp hc with ⟨ha, hb, hm⟩
        exact ⟨⟨r, hr, ha, hb⟩, hm⟩
      · rintro ⟨⟨r, hr, ha, hb⟩, hm⟩
        exact ⟨r, hr, (subtractOneRange_covers m r x).mpr ⟨ha, hb, hm⟩⟩
    rw [h1, covers_cons]
    tauto

theorem subtractMasksFrom_covers (masks : List (Nat × Nat))
    (r : Nat × Nat) (x : Nat) :
    covers (subtractMasksFrom masks r) x ↔
      ((r.1 ≤ x ∧ x < r.2) ∧ ¬covers masks x) := by
  unfold subtractMasksFrom
  rw [subtractFold_covers]
  simp [covers]

theorem subtractAll_covers (missing masks : List (Nat × Nat)) (x : Nat) :
    covers (subtractAll missing masks) x ↔
      covers missing x ∧ ¬covers masks x := by
  unfold subtractAll
  rw [covers_flatMap]
  constructor
  · rintro ⟨r, hr, hc⟩
    rcases (subtractMasksFrom_covers masks r x).mp hc with ⟨⟨ha, hb⟩, hm⟩
    exact ⟨⟨r, hr, ha, hb⟩, hm⟩
  · rintro ⟨⟨r, hr, ha, hb⟩, hm⟩
    exact ⟨r, hr, (subtractMasksFrom_covers masks r x).mpr ⟨⟨ha, hb⟩, hm⟩⟩

theorem subtractOneRange_ne (mask r : Nat × Nat) (h : r.1 < r.2) :
    ∀ p ∈ subtractOneRange mask r, p.1 < p.2 := by
  unfold subtractOneRange
  intro p hp
  by_cases h1 : r.2 ≤ mask.1
  · rw [if_pos h1] at hp
    rw [List.mem_singleton] at hp
    rw [hp]
    exact h
  · rw [if_neg h1] at hp
    by_cases h2 : r.1 ≥ mask.2
    · rw [if_pos h2] at hp
      rw [List.mem_singleton] at hp
      rw [hp]
      exact h
    · rw [if_neg h2, List.mem_append] at hp
      rcases hp with hp | hp
      · by_cases h3 : r.1 < mask.1
        · rw [if_pos h3, List.mem_singleton] at hp
          rw [hp]
          exact h3
        · rw [if_neg h3] at hp
          simp at hp
      · by_cases h4 : r.2 > mask.2
        · rw [if_pos h4, List.mem_singleton] at hp
          rw [hp]
          exact h4
        · rw [if_neg h4] at hp
          simp at hp

theorem subtractFold_ne (masks : List (Nat × Nat))
    (cur : List (Nat × Nat)) (hc : ∀ r ∈ cur, r.1 < r.2) :
    ∀ p ∈ masks.foldl (fun cur mask => cur.flatMap (subtractOneRange mask))
      cur, p.1 < p.2 := by
  induction masks generalizing cur with
  | nil => exact hc
  | cons m ms ih =>
    simp only [List.foldl_cons]
    refine ih _ ?_
    intro p hp
    rcases List.mem_flatMap.mp hp with ⟨r, hr, hpr⟩
    exact subtractOneRange_ne m r (hc r hr) p hpr

theorem subtractAll_ne (missing masks : List (Nat × Nat))
    (hm : ∀ r ∈ missing, r.1 < r.2) :
    ∀ p ∈ subtractAll missing masks, p.1 < p.2 := by
  intro p hp
  rcases List.mem_flatMap.mp hp with ⟨r, hr, hpr⟩
  exact subtractFold_ne masks [r]
    (by simpa using hm r hr) p hpr

theorem mem_keys_insertA {β : Type} (m : List (Nat × β)) (k : Nat) (v : β)
    (a : Nat) (h : a ∈ (insertA m k v).map (fun e => e.1)) :
    a ∈ m.map (fun e => e.1) ∨ a = k := by
  induction m with
  | nil =>
    simp [insertA] at h
    exact Or.inr h
  | cons e rest ih =>
    simp only [insertA] at h
    simp only [List.map_cons, List.mem_cons]
    by_cases he : e.1 = k
    · rw [if_pos he] at h
      simp only [List.map_cons, List.mem_cons] at h
      rcases h with h | h
      · exact Or.inr h
      · exact Or.inl (Or.inr h)
    · rw [if_neg he] at h
      simp only [List.map_cons, List.mem_cons] at h
      rcases h with h | h
      · exact Or.inl (Or.inl h)
      · rcases ih h with h2 | h2
        · exact Or.inl (Or.inr h2)
        · exact Or.inr h2

theorem mem_keys_removeA {β : Type} (m : List (Nat × β)) (k : Nat)
    (a : Nat) (h : a ∈ (removeA m k).map (fun e => e.1)) :
    a ∈ m.map (fun e => e.1) := by
  induction m with
  | nil =>
    simp [removeA] at h
  | cons e rest ih =>
    simp only [removeA] at h
    simp only [List.map_cons, List.mem_cons]
    by_cases he : e.1 = k
    · rw [if_pos he] at h
      exact Or.inr h
    · rw [if_neg he] at h
      simp only [List.map_cons, List.mem_cons] at h
      rcases h with h | h
      · exact Or.inl h
      · exact Or.inr (ih h)

theorem nodupKeys_insertA {β : Type} (m : List (Nat × β)) (k : Nat) (v : β)
    (h : (m.map (fun e => e.1)).Nodup) :
    ((insertA m k v).map (fun e => e.1)).Nodup := by
  induction m with
  | nil => simp [insertA]
  | cons e rest ih =>
    simp only [List.map_cons, List.nodup_cons] at h
    simp only [insertA]
    by_cases he : e.1 = k
    · rw [if_pos he]
      simp only [List.map_cons, List.nodup_cons]
      exact ⟨by rw [← he]; exact h.1, h.2⟩
    · rw [if_neg he]
      simp only [List.map_cons, List.nodup_cons]
      refine ⟨?_, ih h.2⟩
      intro hmem
      rcases mem_keys_insertA rest k v e.1 hmem with h2 | h2
      · exact h.1 h2
      · exact he h2

theorem nodupKeys_removeA {β : Type} (m : List (Nat × β)) (k : Nat)
    (h : (m.map (fun e => e.1)).Nodup) :
    ((removeA m k).map (fun e => e.1)).Nodup := by
  induction m with
  | nil => simp [removeA]
  | cons e rest ih =>
    simp only [List.map_cons, List.nodup_cons] at h
    simp only [removeA]
    by_cases he : e.1 = k
    · rw [if_pos he]
      exact h.2
    · rw [if_neg he]
      simp only [List.map_cons, List.nodup_cons]
      refine ⟨?_, ih h.2⟩
      intro hmem
      exact h.1 (mem_keys_removeA rest k e.1 hmem)

theorem updStep_untouched
    (mm : List (Nat × List (Nat × Nat)) × List (Nat × List (Nat × Nat)))
    (e : Nat × List (Nat × Nat)) (s : Nat) (h : e.1 ≠ s) :
    lookupA (updStep mm e).1 s = lookupA mm.1 s ∧
    lookupA (updStep mm e).2 s = lookupA mm.2 s := by
  unfold updStep
  cases hm : lookupA mm.2 e.1 with
  | none =>
    exact ⟨lookupA_insertA_ne _ _ _ _ h, rfl⟩
  | some miss =>
    dsimp only
    by_cases hnil : merge_ranges (subtractAll miss
        (merge_ranges ((lookupA mm.1 e.1).getD [] ++ e.2))) = []
    · rw [if_pos hnil]
      exact ⟨lookupA_insertA_ne _ _ _ _ h, lookupA_removeA_ne _ _ _ h⟩
    · rw [if_neg hnil]
      exact ⟨lookupA_insertA_ne _ _ _ _ h, lookupA_insertA_ne _ _ _ _ h⟩

theorem updStep_nodupKeys
    (mm : List (Nat × List (Nat × Nat)) × List (Nat × List (Nat × Nat)))
    (e : Nat × List (Nat × Nat))
    (h : (mm.2.map (fun e => e.1)).Nodup) :
    ((updStep mm e).2.map (fun e => e.1)).Nodup := by
  unfold updStep
  cases hm : lookupA mm.2 e.1 with
  | none => exact h
  | some miss =>
    dsimp only
    by_cases hnil : merge_ranges (subtractAll miss
        (merge_ranges ((lookupA mm.1 e.1).getD [] ++ e.2))) = []
    · rw [if_pos hnil]
      exact nodupKeys_removeA _ _ h
    · rw [if_neg hnil]
      exact nodupKeys_insertA _ _ _ h

theorem foldUpd_untouched (L : List (Nat × List (Nat × Nat)))
    (mm : List (Nat × List (Nat × Nat)) × List (Nat × List (Nat × Nat)))
    (s : Nat) (h : ∀ e ∈ L, e.1 ≠ s) :
    lookupA (L.foldl updStep mm).1 s = lookupA mm.1 s ∧
    lookupA (L.foldl updStep mm).2 s = lookupA mm.2 s := by
  induction L generalizing mm with
  | nil => exact ⟨rfl, rfl⟩
  | cons e L' ih =>
    simp only [List.foldl_cons]
    have h1 := updStep_untouched mm e s (h e (List.mem_cons_self _ _))
    have h2 := ih (updStep mm e) (fun f hf => h f (List.mem_cons_of_mem _ hf))
    exact ⟨h2.1.trans h1.1, h2.2.trans h1.2⟩

/-- Characterization of the whole update fold at an affected key `s`
carrying the new spans `sp`: the masked entry becomes the re-merged union
with the new spans, and the missing entry becomes the re-merged
subtraction, removed when empty. -/
theorem foldUpd_key (L : List (Nat × List (Nat × Nat)))
    (mm : List (Nat × List (Nat × Nat)) × List (Nat × List (Nat × Nat)))
    (s : Nat) (sp : List (Nat × Nat))
    (hnd : (L.map (fun e => e.1)).Nodup) (hmem : (s, sp) ∈ L)
    (hmnd : (mm.2.map (fun e => e.1)).Nodup) :
    lookupA (L.foldl updStep mm).1 s =
      some (merge_ranges ((lookupA mm.1 s).getD [] ++ sp)) ∧
    lookupA (L.foldl updStep mm).2 s =
      (match lookupA mm.2 s with
       | none => none
       | some miss =>
         if merge_ranges (subtractAll miss
             (merge_ranges ((lookupA mm.1 s).getD [] ++ sp))) = [] then none
         else some (merge_ranges (subtractAll miss
             (merge_ranges ((lookupA mm.1 s).getD [] ++ sp))))) := by
  induction L generalizing mm with
  | nil => simp at hmem
  | cons e L' ih =>
    simp only [List.map_cons, List.nodup_cons] at hnd
    rcases List.mem_cons.mp hmem with hh | hh
    · -- the affected entry is processed first, later entries leave s alone
      subst hh
      have hkeys : ∀ f ∈ L', f.1 ≠ s := by
        intro f hf hfs
        exact hnd.1 (hfs ▸ List.mem_map_of_mem (fun e => e.1) hf)
      simp only [List.foldl_cons]
      have huntouched := foldUpd_untouched L' (updStep mm (s, sp)) s hkeys
      rw [huntouched.1, huntouched.2]
      unfold updStep
      dsimp only
      cases hm : lookupA mm.2 s with
      | none =>
        dsimp only
        exact ⟨lookupA_insertA_self _ _ _, hm⟩
      | some miss =>
        dsimp only
        by_cases hnil : merge_ranges (subtractAll miss
            (merge_ranges ((lookupA mm.1 s).getD [] ++ sp))) = []
        · rw [if_pos hnil, if_pos hnil]
          exact ⟨lookupA_insertA_self _ _ _, lookupA_removeA_self _ _ hmnd⟩
        · rw [if_neg hnil, if_neg hnil]
          exact ⟨lookupA_insertA_self _ _ _, lookupA_insertA_self _ _ _⟩
    · -- the affected entry sits further down; the head key differs from s
      have hes : e.1 ≠ s := by
        intro hfs
        apply hnd.1
        rw [hfs]
        have : s ∈ L'.map (fun e => e.1) :=
          List.mem_map_of_mem (fun e => e.1) hh
        exact this
      simp only [List.foldl_cons]
      have h1 := updStep_untouched mm e s hes
      have h2 := ih (updStep mm e) hnd.2 hh (updStep_nodupKeys mm e hmnd)
      rw [h1.1, h1.2] at h2
      exact h2

theorem mem_keys_appendA (m : List (Nat × List (Nat × Nat))) (k : Nat)
    (v : Nat × Nat) (a : Nat)
    (h : a ∈ (appendA m k v).map (fun e => e.1)) :
    a ∈ m.map (fun e => e.1) ∨ a = k := by
  induction m with
  | nil =>
    simp [appendA] at h
    exact Or.inr h
  | cons e rest ih =>
    simp only [appendA] at h
    simp only [List.map_cons, List.mem_cons]
    by_cases he : e.1 = k
    · rw [if_pos he] at h
      simp only [List.map_cons, List.mem_cons] at h
      rcases h with h | h
      · exact Or.inl (Or.inl h)
      · exact Or.inl (Or.inr h)
    · rw [if_neg he] at h
      simp only [List.map_cons, List.mem_cons] at h
      rcases h with h | h
      · exact Or.inl (Or.inl h)
      · rcases ih h with h2 | h2
        · exact Or.inl (Or.inr h2)
        · exact Or.inr h2

theorem nodupKeys_appendA (m : List (Nat × List (Nat × Nat))) (k : Nat)
    (v : Nat × Nat) (h : (m.map (fun e => e.1)).Nodup) :
    ((appendA m k v).map (fun e => e.1)).Nodup := by
  induction m with
  | nil => simp [appendA]
  | cons e rest ih =>
    simp only [List.map_cons, List.nodup_cons] at h
    simp only [appendA]
    by_cases he : e.1 = k
    · rw [if_pos he]
      simp only [List.map_cons, List.nodup_cons]
      exact h
    · rw [if_neg he]
      simp only [List.map_cons, List.nodup_cons]
      refine ⟨?_, ih h.2⟩
      intro hmem
      rcases mem_keys_appendA rest k v e.1 hmem with h2 | h2
      · exact h.1 h2
      · exact he h2

theorem groupSpans_nodupKeys (overlaps : List Overlap) :
    ((groupSpans overlaps).map (fun e => e.1)).Nodup := by
  unfold groupSpans
  suffices h : ∀ m : List (Nat × List (Nat × Nat)),
      (m.map (fun e => e.1)).Nodup →
      ((overlaps.foldl (fun m ov => appendA m ov.q.metadata (spanOf ov.q))
        m).map (fun e => e.1)).Nodup by
    exact h [] (by simp)
  induction overlaps with
  | nil =>
    intro m hm
    exact hm
  | cons ov ovs ih =>
    intro m hm
    simp only [List.foldl_cons]
    exact ih _ (nodupKeys_appendA m ov.q.metadata (spanOf ov.q) hm)

theorem nil_iff_not_covers (l : List (Nat × Nat))
    (hne : ∀ r ∈ l, r.1 < r.2) : l = [] ↔ ∀ x, ¬covers l x := by
  constructor
  · intro h x
    rw [h]
    exact covers_nil x
  · intro h
    cases l with
    | nil => rfl
    | cons p rest =>
      exfalso
      exact h p.1 ⟨p, List.mem_cons_self _ _,
        le_refl _, hne p (List.mem_cons_self _ _)⟩

/-- Counterexample to claim C6 as stated: `merge_ranges` merges the
half-open ranges `(0,5)` and `(6,10)` (gap exactly 1) into `(0,10)`, and
the result covers position 5 even though no input range does — the union
of covered positions is NOT preserved. -/
theorem merge_ranges_union_counterexample :
    merge_ranges [(0, 5), (6, 10)] = [(0, 10)] ∧
    covers (merge_ranges [(0, 5), (6, 10)]) 5 ∧
    ¬covers [(0, 5), (6, 10)] 5 := by
  refine ⟨by decide, by decide, by decide⟩

/-- Claim C6, amended.  `merge_ranges` produces a list sorted by start in
which consecutive ranges have a gap of at least 2 (no overlap, no gap-1
adjacency), and whose union of covered positions equals the input union
PLUS every position pinched between two covered neighbours (the single
gap position of each adjacent merge).  After
`update_masked_and_missing_regions`, the masked entry of an affected
sequence is the re-merged union with its new spans, and its missing entry
covers exactly the pinch-closure of (previous missing minus updated
masked) — a width-1 masked range splitting a missing range is re-added by
the re-merge; the sequence is removed exactly when nothing of its missing
ranges survives the subtraction. -/
theorem merge_ranges_and_missing_update_amended
    (ranges : List (Nat × Nat)) (hr : ∀ r ∈ ranges, r.1 < r.2)
    (masked missing : List (Nat × List (Nat × Nat)))
    (overlaps : List Overlap) (s : Nat) (sp : List (Nat × Nat))
    (miss : List (Nat × Nat))
    (hmndKeys : (missing.map (fun e => e.1)).Nodup)
    (hmem : (s, sp) ∈ groupSpans overlaps)
    (hmiss : lookupA missing s = some miss)
    (hms : ∀ r ∈ miss, r.1 < r.2) :
    (merge_ranges ranges).Pairwise (fun a b => a.1 ≤ b.1 ∧ a.2 + 1 < b.1) ∧
    (∀ x, covers (merge_ranges ranges) x ↔ pcovers ranges x) ∧
    lookupA (update_masked_and_missing_regions masked missing overlaps).1 s =
      some (merge_ranges ((lookupA masked s).getD [] ++ sp)) ∧
    (∀ x, covers ((lookupA (update_masked_and_missing_regions masked missing
        overlaps).2 s).getD []) x ↔
      pcovers (subtractAll miss
        (merge_ranges ((lookupA masked s).getD [] ++ sp))) x) ∧
    (∀ x, covers (subtractAll miss
        (merge_ranges ((lookupA masked s).getD [] ++ sp))) x ↔
      covers miss x ∧
        ¬covers (merge_ranges ((lookupA masked s).getD [] ++ sp)) x) ∧
    (lookupA (update_masked_and_missing_regions masked missing overlaps).2 s
        = none ↔
      ∀ x, ¬(covers miss x ∧
        ¬covers (merge_ranges ((lookupA masked s).getD [] ++ sp)) x)) := by
  unfold update_masked_and_missing_regions
  have hK := foldUpd_key (groupSpans overlaps) (masked, missing) s sp
    (groupSpans_nodupKeys overlaps) hmem hmndKeys
  rw [hmiss] at hK
  set M := merge_ranges ((lookupA masked s).getD [] ++ sp) with hM
  have hpieces : ∀ r ∈ subtractAll miss M, r.1 < r.2 := subtractAll_ne _ _ hms
  have hcov := merge_ranges_covers (subtractAll miss M) hpieces
  refine ⟨?_, merge_ranges_covers ranges hr, hK.1, ?_, ?_, ?_⟩
  · refine (merge_ranges_sep ranges).imp_of_mem ?_
    intro a b ha hb hab
    have h1 := merge_ranges_nonempty ranges hr a ha
    exact ⟨by omega, hab⟩
  · intro x
    dsimp only at hK
    by_cases hnil : merge_ranges (subtractAll miss M) = []
    · rw [if_pos hnil] at hK
      rw [hK.2]
      have h1 : subtractAll miss M = [] :=
        (merge_ranges_eq_nil_iff _).mp hnil
      rw [h1]
      simp only [Option.getD_none]
      unfold pcovers
      simp [covers_nil]
    · rw [if_neg hnil] at hK
      rw [hK.2]
      simp only [Option.getD_some]
      exact hcov x
  · intro x
    exact subtractAll_covers miss M x
  · dsimp only at hK
    by_cases hnil : merge_ranges (subtractAll miss M) = []
    · rw [if_pos hnil] at hK
      rw [hK.2]
      have h1 : subtractAll miss M = [] :=
        (merge_ranges_eq_nil_iff _).mp hnil
      constructor
      · intro _ x hx
        have h2 := (subtractAll_covers miss M x).mpr hx
        rw [h1] at h2
        exact covers_nil x h2
      · intro _
        rfl
    · rw [if_neg hnil] at hK
      rw [hK.2]
      constructor
      · intro h
        simp at h
      · intro h
        exfalso
        apply hnil
        rw [merge_ranges_eq_nil_iff]
        rw [nil_iff_not_covers _ hpieces]
        intro x hx
        exact h x ((subtractAll_covers miss M x).mp hx)

theorem merge_ranges_and_missing_update_amended_witness :
    (merge_ranges [(0, 2)]).Pairwise (fun a b => a.1 ≤ b.1 ∧ a.2 + 1 < b.1) ∧
    (∀ x, covers (merge_ranges [(0, 2)]) x ↔ pcovers [(0, 2)] x) ∧
    lookupA (update_masked_and_missing_regions [] [(0, [(0, 5)])]
      [⟨⟨0, 2, 0⟩, [], ⟨0, 2, 0⟩⟩]).1 0 =
      some (merge_ranges
        ((lookupA ([] : List (Nat × List (Nat × Nat))) 0).getD []
          ++ [(0, 2)])) ∧
    (∀ x, covers ((lookupA (update_masked_and_missing_regions []
        [(0, [(0, 5)])] [⟨⟨0, 2, 0⟩, [], ⟨0, 2, 0⟩⟩]).2 0).getD []) x ↔
      pcovers (subtractAll [(0, 5)] (merge_ranges
        ((lookupA ([] : List (Nat × List (Nat × Nat))) 0).getD []
          ++ [(0, 2)]))) x) ∧
    (∀ x, covers (subtractAll [(0, 5)] (merge_ranges
        ((lookupA ([] : List (Nat × List (Nat × Nat))) 0).getD []
          ++ [(0, 2)]))) x ↔
      covers [(0, 5)] x ∧ ¬covers (merge_ranges
        ((lookupA ([] : List (Nat × List (Nat × Nat))) 0).getD []
          ++ [(0, 2)])) x) ∧
    (lookupA (update_masked_and_missing_regions [] [(0, [(0, 5)])]
        [⟨⟨0, 2, 0⟩, [], ⟨0, 2, 0⟩⟩]).2 0 = none ↔
      ∀ x, ¬(covers [(0, 5)] x ∧ ¬covers (merge_ranges
        ((lookupA ([] : List (Nat × List (Nat × Nat))) 0).getD []
          ++ [(0, 2)])) x)) :=
  merge_ranges_and_missing_update_amended [(0, 2)] (by decide) []
    [(0, [(0, 5)])] [⟨⟨0, 2, 0⟩, [], ⟨0, 2, 0⟩⟩] 0 [(0, 2)] [(0, 5)]
    (by decide) (by decide) (by decide) (by decide)

/-! ### `subtract_masked_regions` (`main.rs:478-554`) -/

/-- The unmasked-segment walk of `main.rs:497-523`: `curr` is `curr_pos`;
a mask starting at or past `e` breaks the loop (the remaining masks are
ignored and only the final segment is considered); a mask ending at or
before `curr` is skipped; otherwise the unmasked segment before the mask
(if any) is emitted and `curr` jumps to the mask's end.  After the loop
the final segment `(curr, e)` is emitted if nonempty. -/
def unmaskedSegments (e : Nat) : Nat → List (Nat × Nat) → List (Nat × Nat)
  | curr, [] => if curr < e then [(curr, e)] else []
  | curr, m :: rest =>
    if m.1 ≥ e then (if curr < e then [(curr, e)] else [])
    else if m.2 ≤ curr then unmaskedSegments e curr rest
    else (if curr < m.1 then [(curr, m.1)] else []) ++
      unmaskedSegments e m.2 rest

/-- The proportional target rescaling of `main.rs:533-543`:
`new.first = target.first + ((seg_start - start) / query_len * target_span) as i32`
and likewise for `new.last`.  The `f64` arithmetic is modelled as exact
rational arithmetic; the `as i32` cast truncates toward zero, and
truncating the exact rational `(segStart - start) * span / (e - start)`
toward zero is precisely the truncated integer division `Int.tdiv`. -/
def scaleTarget (t : Iv) (start e segStart segEnd : Nat) : Iv :=
  ⟨t.first + Int.tdiv (((segStart - start : Nat) : Int) *
      (t.last - t.first)) ((e - start : Nat) : Int),
   t.first + Int.tdiv (((segEnd - start : Nat) : Int) *
      (t.last - t.first)) ((e - start : Nat) : Int),
   t.metadata⟩

/-- Body of the `for (query_interval, cigar, target_interval) in
overlaps.drain(..)` loop of `main.rs:485-551` for one overlap: if the
overlap's sequence has a masked entry, normalize the query span, walk the
masks, and emit one overlap per unmasked segment with the target interval
rescaled proportionally; otherwise keep the overlap unchanged. -/
def subtractOv (masked : List (Nat × List (Nat × Nat))) (ov : Overlap) :
    List Overlap :=
  match lookupA masked ov.q.metadata with
  | none => [ov]
  | some masks =>
    (unmaskedSegments (ivMax ov.q).toNat (ivMin ov.q).toNat masks).map
      (fun seg =>
        ⟨⟨(seg.1 : Int), (seg.2 : Int), ov.q.metadata⟩, ov.cigar,
         scaleTarget ov.target (ivMin ov.q).toNat (ivMax ov.q).toNat
           seg.1 seg.2⟩)

/-- Whole `subtract_masked_regions`, `main.rs:478-554`. -/
def subtract_masked_regions (masked : List (Nat × List (Nat × Nat)))
    (overlaps : List Overlap) : List Overlap :=
  overlaps.flatMap (subtractOv masked)

/-- Every emitted segment starts at or after `curr`, is nonempty, and
ends at or before `e` (no hypotheses on the masks needed). -/
theorem unmaskedSegments_shape (masks : List (Nat × Nat)) (e : Nat) :
    ∀ curr, ∀ seg ∈ unmaskedSegments e curr masks,
      curr ≤ seg.1 ∧ seg.1 < seg.2 ∧ seg.2 ≤ e := by
  induction masks with
  | nil =>
    intro curr seg hseg
    simp only [unmaskedSegments] at hseg
    by_cases hc : curr < e
    · rw [if_pos hc, List.mem_singleton] at hseg
      rw [hseg]
      exact ⟨le_refl _, hc, le_refl _⟩
    · rw [if_neg hc] at hseg
      simp at hseg
  | cons m rest ih =>
    intro curr seg hseg
    simp only [unmaskedSegments] at hseg
    by_cases hb : m.1 ≥ e
    · rw [if_pos hb] at hseg
      by_cases hc : curr < e
      · rw [if_pos hc, List.mem_singleton] at hseg
        rw [hseg]
        exact ⟨le_refl _, hc, le_refl _⟩
      · rw [if_neg hc] at hseg
        simp at hseg
    · rw [if_neg hb] at hseg
      by_cases hs : m.2 ≤ curr
      · rw [if_pos hs] at hseg
        exact ih curr seg hseg
      · rw [if_neg hs, List.mem_append] at hseg
        rcases hseg with hseg | hseg
        · by_cases hc : curr < m.1
          · rw [if_pos hc, List.mem_singleton] at hseg
            rw [hseg]
            exact ⟨le_refl _, hc, by omega⟩
          · rw [if_neg hc] at hseg
            simp at hseg
        · have h2 := ih m.2 seg hseg
          exact ⟨by omega, h2.2.1, h2.2.2⟩

/-- A position below the end of the head mask is not covered by the tail
masks (sorted, well-formed masks). -/
theorem covers_tail_of_sorted (m : Nat × Nat) (rest : List (Nat × Nat))
    (hsorted : (m :: rest).Pairwise (fun a b => a.2 ≤ b.1)) (x : Nat)
    (hx : x < m.2) : ¬covers rest x := by
  rintro ⟨b, hb, hb1, hb2⟩
  have := (List.pairwise_cons.mp hsorted).1 b hb
  omega

/-- Pointwise characterization of the unmasked segments: a position is
covered exactly when it lies in `[curr, e)` and in no mask. -/
theorem unmaskedSegments_covers (masks : List (Nat × Nat)) (e : Nat)
    (hwf : ∀ m ∈ masks, m.1 ≤ m.2)
    (hsorted : masks.Pairwise (fun a b => a.2 ≤ b.1)) :
    ∀ curr x, covers (unmaskedSegments e curr masks) x ↔
      (curr ≤ x ∧ x < e ∧ ¬covers masks x) := by
  induction masks with
  | nil =>
    intro curr x
    simp only [unmaskedSegments]
    by_cases hc : curr < e
    · rw [if_pos hc]
      simp [covers]
    · rw [if_neg hc]
      simp [covers]
      omega
  | cons m rest ih =>
    intro curr x
    have hwfm : m.1 ≤ m.2 := hwf m (List.mem_cons_self _ _)
    have hwf' : ∀ q ∈ rest, q.1 ≤ q.2 :=
      fun q hq => hwf q (List.mem_cons_of_mem _ hq)
    have hsorted' := (List.pairwise_cons.mp hsorted).2
    simp only [unmaskedSegments]
    by_cases hb : m.1 ≥ e
    · rw [if_pos hb]
      have hrest : ∀ y, y < e → ¬covers rest y := by
        intro y hy
        exact covers_tail_of_sorted m rest hsorted y (by omega)
      by_cases hc : curr < e
      · rw [if_pos hc]
        constructor
        · intro h
          rcases (covers_cons _ _ _).mp h with h | h
          · refine ⟨h.1, h.2, ?_⟩
            rw [covers_cons]
            push_neg
            refine ⟨fun _ => by omega, hrest x h.2⟩
          · exact absurd h (covers_nil x)
        · rintro ⟨h1, h2, _⟩
          exact (covers_cons _ _ _).mpr (Or.inl ⟨h1, h2⟩)
      · rw [if_neg hc]
        constructor
        · intro h
          exact absurd h (covers_nil x)
        · rintro ⟨h1, h2, _⟩
          omega
    · rw [if_neg hb]
      by_cases hs : m.2 ≤ curr
      · rw [if_pos hs]
        rw [ih hwf' hsorted' curr x]
        rw [covers_cons]
        constructor
        · rintro ⟨h1, h2, h3⟩
          exact ⟨h1, h2, by push_neg; exact ⟨fun hm => by omega, h3⟩⟩
        · rintro ⟨h1, h2, h3⟩
          push_neg at h3
          exact ⟨h1, h2, h3.2⟩
      · rw [if_neg hs]
        rw [covers_append, ih hwf' hsorted' m.2 x]
        have hseg : covers (if curr < m.1 then [(curr, m.1)] else []) x ↔
            (curr ≤ x ∧ x < m.1) := by
          by_cases hc : curr < m.1
          · rw [if_pos hc]
            simp [covers]
          · rw [if_neg hc]
            simp [covers]
            omega
        rw [hseg, covers_cons]
        constructor
        · rintro (⟨h1, h2⟩ | ⟨h1, h2, h3⟩)
          · refine ⟨h1, by omega, ?_⟩
            push_neg
            refine ⟨fun hm => by omega, ?_⟩
            exact covers_tail_of_sorted m rest hsorted x (by omega)
          · refine ⟨by omega, h2, ?_⟩
            push_neg
            exact ⟨fun hm => by omega, h3⟩
        · rintro ⟨h1, h2, h3⟩
          push_neg at h3
          by_cases hx : x < m.1
          · exact Or.inl ⟨h1, hx⟩
          · refine Or.inr ⟨?_, h2, h3.2⟩
            have := h3.1
            omega

/-- Every emitted segment is interval-disjoint from every mask (sorted,
well-formed masks). -/
theorem unmaskedSegments_disjoint (masks : List (Nat × Nat)) (e : Nat)
    (hwf : ∀ m ∈ masks, m.1 ≤ m.2)
    (hsorted : masks.Pairwise (fun a b => a.2 ≤ b.1)) :
    ∀ curr, ∀ seg ∈ unmaskedSegments e curr masks, ∀ m ∈ masks,
      seg.2 ≤ m.1 ∨ m.2 ≤ seg.1 := by
  induction masks with
  | nil =>
    intro curr seg _ m hm
    simp at hm
  | cons m0 rest ih =>
    intro curr seg hseg m hm
    have hwfm : m0.1 ≤ m0.2 := hwf m0 (List.mem_cons_self _ _)
    have hwf' : ∀ q ∈ rest, q.1 ≤ q.2 :=
      fun q hq => hwf q (List.mem_cons_of_mem _ hq)
    have hsorted' := (List.pairwise_cons.mp hsorted).2
    have hrest_lb : ∀ b ∈ rest, m0.2 ≤ b.1 :=
      (List.pairwise_cons.mp hsorted).1
    simp only [unmaskedSegments] at hseg
    by_cases hb : m0.1 ≥ e
    · rw [if_pos hb] at hseg
      by_cases hc : curr < e
      · rw [if_pos hc, List.mem_singleton] at hseg
        rw [hseg]
        rcases List.mem_cons.mp hm with hm | hm
        · rw [hm]
          left
          exact hb
        · left
          have := hrest_lb m hm
          simp only
          omega
      · rw [if_neg hc] at hseg
        simp at hseg
    · rw [if_neg hb] at hseg
      by_cases hs : m0.2 ≤ curr
      · rw [if_pos hs] at hseg
        rcases List.mem_cons.mp hm with hm | hm
        · right
          rw [hm]
          have := (unmaskedSegments_shape rest e curr seg hseg).1
          omega
        · exact ih hwf' hsorted' curr seg hseg m hm
      · rw [if_neg hs, List.mem_append] at hseg
        rcases hseg with hseg | hseg
        · by_cases hc : curr < m0.1
          · rw [if_pos hc, List.mem_singleton] at hseg
            rw [hseg]
            rcases List.mem_cons.mp hm with hm | hm
            · rw [hm]
              left
              exact le_refl _
            · left
              have := hrest_lb m hm
              simp only
              omega
          · rw [if_neg hc] at hseg
            simp at hseg
        · rcases List.mem_cons.mp hm with hm | hm
          · right
            rw [hm]
            have := (unmaskedSegments_shape rest e m0.2 seg hseg).1
            omega
          · exact ih hwf' hsorted' m0.2 seg hseg m hm

/-- Claim C3: for an overlap whose query sequence has a (sorted, merged)
masked entry, `subtract_masked_regions` emits sub-overlaps whose query
intervals' union is exactly the normalized query span minus the masks,
each contained in the span, nonempty, and interval-disjoint from every
mask, with the CIGAR kept and the target interval rescaled by the
sub-interval's fractional position inside the query span (the `f64`
arithmetic modelled as exact rationals with truncation toward zero). -/
theorem subtract_masked_union_scaling
    (masked : List (Nat × List (Nat × Nat))) (ov : Overlap)
    (masks : List (Nat × Nat))
    (hlook : lookupA masked ov.q.metadata = some masks)
    (hwf : ∀ m ∈ masks, m.1 ≤ m.2)
    (hsorted : masks.Pairwise (fun a b => a.2 ≤ b.1))
    (hf : 0 ≤ ov.q.first) (hl : 0 ≤ ov.q.last) :
    (∀ x : Nat,
      (∃ o' ∈ subtractOv masked ov,
        o'.q.first ≤ (x : Int) ∧ (x : Int) < o'.q.last) ↔
      ((ivMin ov.q).toNat ≤ x ∧ x < (ivMax ov.q).toNat ∧
        ¬covers masks x)) ∧
    (∀ o' ∈ subtractOv masked ov,
      ivMin ov.q ≤ o'.q.first ∧ o'.q.first < o'.q.last ∧
        o'.q.last ≤ ivMax ov.q ∧
        ∀ m ∈ masks, o'.q.last ≤ (m.1 : Int) ∨ (m.2 : Int) ≤ o'.q.first) ∧
    (∀ o' ∈ subtractOv masked ov,
      o'.cigar = ov.cigar ∧
      o'.target = scaleTarget ov.target (ivMin ov.q).toNat
        (ivMax ov.q).toNat o'.q.first.toNat o'.q.last.toNat) := by
  have hmin : (0 : Int) ≤ ivMin ov.q := le_min hf hl
  have hmax : (0 : Int) ≤ ivMax ov.q := le_trans hmin min_le_max
  have hsub : subtractOv masked ov =
      (unmaskedSegments (ivMax ov.q).toNat (ivMin ov.q).toNat masks).map
        (fun seg =>
          ⟨⟨(seg.1 : Int), (seg.2 : Int), ov.q.metadata⟩, ov.cigar,
           scaleTarget ov.target (ivMin ov.q).toNat (ivMax ov.q).toNat
             seg.1 seg.2⟩) := by
    unfold subtractOv
    rw [hlook]
  refine ⟨?_, ?_, ?_⟩
  · intro x
    rw [hsub, ← unmaskedSegments_covers masks _ hwf hsorted _ x]
    constructor
    · rintro ⟨o', ho', h1, h2⟩
      rcases List.mem_map.mp ho' with ⟨seg, hseg, rfl⟩
      dsimp only at h1 h2
      refine ⟨seg, hseg, ?_, ?_⟩
      · exact_mod_cast h1
      · exact_mod_cast h2
    · rintro ⟨seg, hseg, h1, h2⟩
      refine ⟨_, List.mem_map_of_mem _ hseg, ?_, ?_⟩
      · dsimp only
        exact_mod_cast h1
      · dsimp only
        exact_mod_cast h2
  · intro o' ho'
    rw [hsub] at ho'
    rcases List.mem_map.mp ho' with ⟨seg, hseg, rfl⟩
    have hsh := unmaskedSegments_shape masks _ _ seg hseg
    have hdis := unmaskedSegments_disjoint masks _ hwf hsorted _ seg hseg
    dsimp only
    refine ⟨?_, ?_, ?_, ?_⟩
    · rw [← Int.toNat_of_nonneg hmin]
      exact_mod_cast hsh.1
    · exact_mod_cast hsh.2.1
    · rw [← Int.toNat_of_nonneg hmax]
      exact_mod_cast hsh.2.2
    · intro m hm
      rcases hdis m hm with h | h
      · left
        exact_mod_cast h
      · right
        exact_mod_cast h
  · intro o' ho'
    rw [hsub] at ho'
    rcases List.mem_map.mp ho' with ⟨seg, hseg, rfl⟩
    refine ⟨rfl, ?_⟩
    simp

theorem subtract_masked_union_scaling_witness :
    (∀ x : Nat,
      (∃ o' ∈ subtractOv [(0, [(2, 3)])]
          ⟨⟨0, 9, 0⟩, [⟨1, 'M'⟩], ⟨100, 109, 1⟩⟩,
        o'.q.first ≤ (x : Int) ∧ (x : Int) < o'.q.last) ↔
      ((ivMin (⟨0, 9, 0⟩ : Iv)).toNat ≤ x ∧
        x < (ivMax (⟨0, 9, 0⟩ : Iv)).toNat ∧ ¬covers [(2, 3)] x)) ∧
    (∀ o' ∈ subtractOv [(0, [(2, 3)])]
        ⟨⟨0, 9, 0⟩, [⟨1, 'M'⟩], ⟨100, 109, 1⟩⟩,
      ivMin (⟨0, 9, 0⟩ : Iv) ≤ o'.q.first ∧ o'.q.first < o'.q.last ∧
        o'.q.last ≤ ivMax (⟨0, 9, 0⟩ : Iv) ∧
        ∀ m ∈ ([(2, 3)] : List (Nat × Nat)),
          o'.q.last ≤ (m.1 : Int) ∨ (m.2 : Int) ≤ o'.q.first) ∧
    (∀ o' ∈ subtractOv [(0, [(2, 3)])]
        ⟨⟨0, 9, 0⟩, [⟨1, 'M'⟩], ⟨100, 109, 1⟩⟩,
      o'.cigar = [⟨1, 'M'⟩] ∧
      o'.target = scaleTarget ⟨100, 109, 1⟩ (ivMin (⟨0, 9, 0⟩ : Iv)).toNat
        (ivMax (⟨0, 9, 0⟩ : Iv)).toNat o'.q.first.toNat o'.q.last.toNat) := by
  exact subtract_masked_union_scaling [(0, [(2, 3)])]
    ⟨⟨0, 9, 0⟩, [⟨1, 'M'⟩], ⟨100, 109, 1⟩⟩ [(2, 3)]
    (by decide) (by decide) (by decide) (by decide) (by decide)

/-- Claim C10: whenever an overlap's query sequence has a masked entry,
every surviving sub-interval emitted by `subtract_masked_regions` is
normalized (`first < last`, so in particular `first ≤ last`) even when
the input overlap was reverse-strand (`first > last`); an overlap on a
sequence with no masked entry is returned unchanged, preserving its
orientation. -/
theorem subtract_masked_discards_orientation
    (masked : List (Nat × List (Nat × Nat))) (overlaps : List Overlap) :
    (∀ ov ∈ overlaps, lookupA masked ov.q.metadata = none →
      subtractOv masked ov = [ov]) ∧
    (∀ o' ∈ subtract_masked_regions masked overlaps,
      lookupA masked o'.q.metadata ≠ none → o'.q.first < o'.q.last) := by
  constructor
  · intro ov _ hnone
    unfold subtractOv
    rw [hnone]
  · intro o' ho' hlook
    unfold subtract_masked_regions at ho'
    rcases List.mem_flatMap.mp ho' with ⟨ov, hov, ho2⟩
    unfold subtractOv at ho2
    cases hl : lookupA masked ov.q.metadata with
    | none =>
      rw [hl] at ho2
      rw [List.mem_singleton] at ho2
      subst ho2
      exact absurd hl hlook
    | some masks =>
      rw [hl] at ho2
      rcases List.mem_map.mp ho2 with ⟨seg, hseg, rfl⟩
      have h := (unmaskedSegments_shape masks _ _ seg hseg).2.1
      dsimp only
      exact_mod_cast h

theorem subtract_masked_discards_orientation_witness :
    subtractOv [(1, [(2, 3)])] ⟨⟨9, 0, 0⟩, [], ⟨0, 0, 2⟩⟩ =
      [⟨⟨9, 0, 0⟩, [], ⟨0, 0, 2⟩⟩] ∧
    (nthOv (subtract_masked_regions [(0, [(2, 3)])]
      [⟨⟨9, 0, 0⟩, [], ⟨0, 0, 2⟩⟩]) 0).q.first <
      (nthOv (subtract_masked_regions [(0, [(2, 3)])]
        [⟨⟨9, 0, 0⟩, [], ⟨0, 0, 2⟩⟩]) 0).q.last :=
  ⟨(subtract_masked_discards_orientation [(1, [(2, 3)])]
      [⟨⟨9, 0, 0⟩, [], ⟨0, 0, 2⟩⟩]).1 _ (by decide) (by decide),
   (subtract_masked_discards_orientation [(0, [(2, 3)])]
      [⟨⟨9, 0, 0⟩, [], ⟨0, 0, 2⟩⟩]).2 _ (by decide) (by decide)⟩

/-! ### `extend_short_intervals` (`main.rs:656-690`) -/

/-- Per-overlap transformation of the `for` loop of `main.rs:663-685`:
an overlap strictly shorter than `min_length` has its query interval
grown by `min_len` on both sides (clamped to `[0, seq_len]`, respecting
the strand encoding) and its target interval grown by `min_len` on both
sides with no clamping at all; longer overlaps are untouched.
`seqLen` models `impg.seq_index.get_len_from_id(..).unwrap()`. -/
def extendOne (seqLen : Nat → Nat) (min_length : Nat) (ov : Overlap) :
    Overlap :=
  if (ov.q.last - ov.q.first).natAbs < min_length then
    if ov.q.first ≤ ov.q.last then
      { ov with
        q := ⟨max 0 (ov.q.first - (min_length : Int)),
              min ((seqLen ov.q.metadata : Int)) (ov.q.last + min_length),
              ov.q.metadata⟩,
        target := ⟨ov.target.first - min_length,
                   ov.target.last + min_length, ov.target.metadata⟩ }
    else
      { ov with
        q := ⟨min ((seqLen ov.q.metadata : Int)) (ov.q.first + min_length),
              max 0 (ov.q.last - (min_length : Int)),
              ov.q.metadata⟩,
        target := ⟨ov.target.first - min_length,
                   ov.target.last + min_length, ov.target.metadata⟩ }
  else ov

/-- Whole `extend_short_intervals`, `main.rs:656-690`: transform each
overlap in place, then `sort_unstable_by_key` by
`(metadata, min(first, last))`.  The unstable sort leaves the order of
equal keys unspecified; the stable sort used here is one admissible
outcome. -/
def extend_short_intervals (seqLen : Nat → Nat) (min_length : Nat)
    (overlaps : List Overlap) : List Overlap :=
  stableSort mergeKeyLe (overlaps.map (extendOne seqLen min_length))

/-- Claim C4: an overlap of length < L gets its query interval grown by
L in both directions clamped to `[0, sequence length]` (stated on the
normalized min/max endpoints, which covers both strand encodings, under
the in-bounds premise), its target interval grown by L in both
directions with NO clamping (so the resulting target coordinates may be
negative or exceed the target length), and its CIGAR kept; overlaps of
length at least L are left unchanged; the final sort only permutes. -/
theorem extend_short_intervals_correct (seqLen : Nat → Nat) (L : Nat)
    (ov : Overlap) (hb1 : 0 ≤ ivMin ov.q)
    (hb2 : ivMax ov.q ≤ (seqLen ov.q.metadata : Int)) :
    ((ov.q.last - ov.q.first).natAbs < L →
      ivMin (extendOne seqLen L ov).q = max 0 (ivMin ov.q - L) ∧
      ivMax (extendOne seqLen L ov).q =
        min ((seqLen ov.q.metadata : Int)) (ivMax ov.q + L) ∧
      (extendOne seqLen L ov).q.metadata = ov.q.metadata ∧
      (extendOne seqLen L ov).target.first = ov.target.first - L ∧
      (extendOne seqLen L ov).target.last = ov.target.last + L ∧
      (extendOne seqLen L ov).target.metadata = ov.target.metadata ∧
      (extendOne seqLen L ov).cigar = ov.cigar) ∧
    (L ≤ (ov.q.last - ov.q.first).natAbs → extendOne seqLen L ov = ov) ∧
    (∀ ovs : List Overlap,
      (extend_short_intervals seqLen L ovs).Perm
        (ovs.map (extendOne seqLen L))) := by
  refine ⟨?_, ?_, ?_⟩
  · intro hlen
    unfold extendOne
    rw [if_pos hlen]
    by_cases hfw : ov.q.first ≤ ov.q.last
    · rw [if_pos hfw]
      unfold ivMin ivMax at *
      refine ⟨?_, ?_, rfl, rfl, rfl, rfl, rfl⟩ <;>
        simp only <;> omega
    · rw [if_neg hfw]
      unfold ivMin ivMax at *
      refine ⟨?_, ?_, rfl, rfl, rfl, rfl, rfl⟩ <;>
        simp only <;> omega
  · intro hlen
    unfold extendOne
    rw [if_neg (by omega)]
  · intro ovs
    exact stableSort_perm mergeKeyLe (ovs.map (extendOne seqLen L))

theorem extend_short_intervals_correct_witness :
    (((⟨⟨2, 3, 0⟩, [⟨4, '='⟩], ⟨0, 7, 1⟩⟩ : Overlap).q.last -
        (⟨⟨2, 3, 0⟩, [⟨4, '='⟩], ⟨0, 7, 1⟩⟩ : Overlap).q.first).natAbs < 5 →
      ivMin (extendOne (fun _ => 10) 5
          ⟨⟨2, 3, 0⟩, [⟨4, '='⟩], ⟨0, 7, 1⟩⟩).q =
        max 0 (ivMin (⟨2, 3, 0⟩ : Iv) - 5) ∧
      ivMax (extendOne (fun _ => 10) 5
          ⟨⟨2, 3, 0⟩, [⟨4, '='⟩], ⟨0, 7, 1⟩⟩).q =
        min ((10 : Nat) : Int) (ivMax (⟨2, 3, 0⟩ : Iv) + 5) ∧
      (extendOne (fun _ => 10) 5
          ⟨⟨2, 3, 0⟩, [⟨4, '='⟩], ⟨0, 7, 1⟩⟩).q.metadata = 0 ∧
      (extendOne (fun _ => 10) 5
          ⟨⟨2, 3, 0⟩, [⟨4, '='⟩], ⟨0, 7, 1⟩⟩).target.first = 0 - (5 : Nat) ∧
      (extendOne (fun _ => 10) 5
          ⟨⟨2, 3, 0⟩, [⟨4, '='⟩], ⟨0, 7, 1⟩⟩).target.last = 7 + (5 : Nat) ∧
      (extendOne (fun _ => 10) 5
          ⟨⟨2, 3, 0⟩, [⟨4, '='⟩], ⟨0, 7, 1⟩⟩).target.metadata = 1 ∧
      (extendOne (fun _ => 10) 5
          ⟨⟨2, 3, 0⟩, [⟨4, '='⟩], ⟨0, 7, 1⟩⟩).cigar = [⟨4, '='⟩]) ∧
    (5 ≤ (((⟨⟨2, 3, 0⟩, [⟨4, '='⟩], ⟨0, 7, 1⟩⟩ : Overlap).q.last -
        (⟨⟨2, 3, 0⟩, [⟨4, '='⟩], ⟨0, 7, 1⟩⟩ : Overlap).q.first).natAbs) →
      extendOne (fun _ => 10) 5 ⟨⟨2, 3, 0⟩, [⟨4, '='⟩], ⟨0, 7, 1⟩⟩ =
        ⟨⟨2, 3, 0⟩, [⟨4, '='⟩], ⟨0, 7, 1⟩⟩) ∧
    (∀ ovs : List Overlap,
      (extend_short_intervals (fun _ => 10) 5 ovs).Perm
        (ovs.map (extendOne (fun _ => 10) 5))) ∧
    (extendOne (fun _ => 10) 5
      ⟨⟨2, 3, 0⟩, [⟨4, '='⟩], ⟨0, 7, 1⟩⟩).target.first < 0 := by
  refine ⟨?_, ?_, ?_, by decide⟩
  · exact (extend_short_intervals_correct (fun _ => 10) 5
      ⟨⟨2, 3, 0⟩, [⟨4, '='⟩], ⟨0, 7, 1⟩⟩ (by decide) (by decide)).1
  · exact (extend_short_intervals_correct (fun _ => 10) 5
      ⟨⟨2, 3, 0⟩, [⟨4, '='⟩], ⟨0, 7, 1⟩⟩ (by decide) (by decide)).2.1
  · exact (extend_short_intervals_correct (fun _ => 10) 5
      ⟨⟨2, 3, 0⟩, [⟨4, '='⟩], ⟨0, 7, 1⟩⟩ (by decide) (by decide)).2.2

/-! ### `parse_range`, `parse_target_range`, `parse_bed_file`
(`main.rs:692-735`) -/

/-- The four error conditions of the range parsers (`io::Error` payloads
distinguished by their message). -/
inductive RangeErr where
  | format
  | invalidStart
  | invalidEnd
  | inverted
deriving DecidableEq, Repr

/-- ASCII digit test. -/
def isDigitCh (c : Char) : Bool := decide ('0' ≤ c ∧ c ≤ '9')

/-- Numeric value of an ASCII digit. -/
def digitVal (c : Char) : Nat := c.toNat - '0'.toNat

/-- Rust `str::parse::<i32>` (`i32::from_str`): an optional `+` or `-`
sign followed by one or more ASCII digits, rejected when the value falls
outside the `i32` range. -/
def parseI32 (s : List Char) : Option Int :=
  match s with
  | [] => none
  | c :: rest =>
    let neg : Bool := c = '-'
    let digits := if c = '-' ∨ c = '+' then rest else s
    if digits.isEmpty ∨ ¬digits.all isDigitCh then none
    else
      let v : Nat := digits.foldl (fun acc c => acc * 10 + digitVal c) 0
      let i : Int := if neg then -(v : Int) else (v : Int)
      if -(2 ^ 31) ≤ i ∧ i < 2 ^ 31 then some i else none

/-- Whole `parse_range`, `main.rs:722-735`. -/
def parse_range (parts : List (List Char)) : Except RangeErr (Int × Int) :=
  if parts.length ≠ 2 then .error .format
  else
    match parseI32 (parts.getD 0 []), parseI32 (parts.getD 1 []) with
    | none, _ => .error .invalidStart
    | some _, none => .error .invalidEnd
    | some s, some e => if s ≥ e then .error .inverted else .ok (s, e)

/-- Rust `str::split(sep)`: splits at every separator, keeping empty
pieces (an empty string yields one empty piece). -/
def splitChar (sep : Char) : List Char → List (List Char)
  | [] => [[]]
  | c :: rest =>
    if c = sep then [] :: splitChar sep rest
    else
      match splitChar sep rest with
      | p :: ps => (c :: p) :: ps
      | [] => [[c]]

/-- Rust `str::rsplitn(2, sep).collect::<Vec<_>>()`: the piece after the
last separator first, then everything before it; a single piece when the
separator does not occur. -/
def rsplitn2 (sep : Char) (s : List Char) : List (List Char) :=
  if s.any (fun c => c = sep) then
    [(s.reverse.takeWhile (fun c => c ≠ sep)).reverse,
     ((s.reverse.dropWhile (fun c => c ≠ sep)).drop 1).reverse]
  else [s]

/-- Whole `parse_target_range`, `main.rs:692-700`. -/
def parse_target_range (s : List Char) :
    Except RangeErr (List Char × (Int × Int)) :=
  if (rsplitn2 ':' s).length ≠ 2 then .error .format
  else
    match parse_range (splitChar '-' ((rsplitn2 ':' s).getD 0 [])) with
    | .error e => .error e
    | .ok r => .ok ((rsplitn2 ':' s).getD 1 [], r)

/-- One line of `parse_bed_file`, `main.rs:707-717` (the file iteration
itself is I/O and stays outside the model): split at tabs, require at
least three fields, parse fields 1..2 as the range, keep field 3 as the
optional name. -/
def parse_bed_line (line : List Char) :
    Except RangeErr (List Char × (Int × Int) × Option (List Char)) :=
  if (splitChar '\t' line).length < 3 then .error .format
  else
    match parse_range [(splitChar '\t' line).getD 1 [],
        (splitChar '\t' line).getD 2 []] with
    | .error e => .error e
    | .ok r => .ok ((splitChar '\t' line).getD 0 [], r,
        ((splitChar '\t' line).drop 3).head?)

/-- Claim C8: `parse_range` errs exactly when the input is not two
parts, a part fails to parse as a signed 32-bit integer, or the parsed
start is at least the parsed end; on success it returns exactly the
parsed pair, and consequently every range accepted through
`parse_target_range` or a `parse_bed_file` line satisfies start < end. -/
theorem parse_range_spec :
    (∀ parts : List (List Char),
      (parts.length ≠ 2 → parse_range parts = .error .format) ∧
      (parts.length = 2 → parseI32 (parts.getD 0 []) = none →
        parse_range parts = .error .invalidStart) ∧
      (parts.length = 2 → ∀ s, parseI32 (parts.getD 0 []) = some s →
        parseI32 (parts.getD 1 []) = none →
        parse_range parts = .error .invalidEnd) ∧
      (parts.length = 2 → ∀ s e, parseI32 (parts.getD 0 []) = some s →
        parseI32 (parts.getD 1 []) = some e →
        (s ≥ e → parse_range parts = .error .inverted) ∧
        (s < e → parse_range parts = .ok (s, e))) ∧
      (∀ s e, parse_range parts = .ok (s, e) →
        parts.length = 2 ∧ parseI32 (parts.getD 0 []) = some s ∧
        parseI32 (parts.getD 1 []) = some e ∧ s < e)) ∧
    (∀ s name r, parse_target_range s = .ok (name, r) → r.1 < r.2) ∧
    (∀ line name r nm, parse_bed_line line = .ok (name, r, nm) →
      r.1 < r.2) := by
  have hmain : ∀ parts : List (List Char), ∀ s e : Int,
      parse_range parts = .ok (s, e) →
      parts.length = 2 ∧ parseI32 (parts.getD 0 []) = some s ∧
      parseI32 (parts.getD 1 []) = some e ∧ s < e := by
    intro parts s e h
    unfold parse_range at h
    by_cases hlen : parts.length = 2
    · rw [if_neg (by omega)] at h
      cases h0 : parseI32 (parts.getD 0 []) with
      | none =>
        rw [h0] at h
        simp at h
      | some s0 =>
        rw [h0] at h
        cases h1 : parseI32 (parts.getD 1 []) with
        | none =>
          rw [h1] at h
          simp at h
        | some e0 =>
          rw [h1] at h
          dsimp only at h
          by_cases hge : s0 ≥ e0
          · rw [if_pos hge] at h
            simp at h
          · rw [if_neg hge] at h
            simp only [Except.ok.injEq, Prod.mk.injEq] at h
            obtain ⟨hs, he⟩ := h
            subst hs
            subst he
            exact ⟨hlen, rfl, rfl, by omega⟩
    · rw [if_pos (by omega)] at h
      simp at h
  refine ⟨?_, ?_, ?_⟩
  · intro parts
    refine ⟨?_, ?_, ?_, ?_, hmain parts⟩
    · intro hlen
      unfold parse_range
      rw [if_pos (by omega)]
    · intro hlen h0
      unfold parse_range
      rw [if_neg (by omega), h0]
    · intro hlen s h0 h1
      unfold parse_range
      rw [if_neg (by omega), h0, h1]
    · intro hlen s e h0 h1
      constructor
      · intro hge
        unfold parse_range
        rw [if_neg (by omega), h0, h1]
        dsimp only
        rw [if_pos hge]
      · intro hlt
        unfold parse_range
        rw [if_neg (by omega), h0, h1]
        dsimp only
        rw [if_neg (by omega)]
  · intro s name r h
    unfold parse_target_range at h
    by_cases hlen : (rsplitn2 ':' s).length ≠ 2
    · rw [if_pos hlen] at h
      simp at h
    · rw [if_neg hlen] at h
      cases hp : parse_range (splitChar '-' ((rsplitn2 ':' s).getD 0 []))
        with
      | error e =>
        rw [hp] at h
        simp at h
      | ok r0 =>
        rw [hp] at h
        simp only [Except.ok.injEq, Prod.mk.injEq] at h
        have h2 := hmain _ r0.1 r0.2 (by rw [hp])
        rw [← h.2]
        exact h2.2.2.2
  · intro line name r nm h
    unfold parse_bed_line at h
    by_cases hlen : (splitChar '\t' line).length < 3
    · rw [if_pos hlen] at h
      simp at h
    · rw [if_neg hlen] at h
      cases hp : parse_range [(splitChar '\t' line).getD 1 [],
          (splitChar '\t' line).getD 2 []] with
      | error e =>
        rw [hp] at h
        simp at h
      | ok r0 =>
        rw [hp] at h
        simp only [Except.ok.injEq, Prod.mk.injEq] at h
        have h2 := hmain _ r0.1 r0.2 (by rw [hp])
        rw [← h.2.1]
        exact h2.2.2.2

theorem parse_range_spec_witness :
    parse_range [['3'], ['7']] = .ok (3, 7) ∧ ((3 : Int), (7 : Int)).1 <
      ((3 : Int), (7 : Int)).2 :=
  ⟨((parse_range_spec.1 [['3'], ['7']]).2.2.2.1 (by decide) 3 7
      (by decide) (by decide)).2 (by decide),
   parse_range_spec.2.1 ['c', ':', '3', '-', '7'] ['c'] (3, 7) rfl⟩

/-! ### PAF identity tallies of `output_results_paf` (`main.rs:796-810`) -/

/-- The seven accumulators of the fold at `main.rs:796`, in source
order: `(matches, mismatches, insertions, inserted_bp, deletions,
deleted_bp, block_len)`. -/
structure PafCounts where
  m : Nat
  mm : Nat
  i : Nat
  ibp : Nat
  d : Nat
  dbp : Nat
  bl : Nat
deriving DecidableEq, Repr

/-- One step of the fold at `main.rs:796-806`. -/
def pafStep (st : PafCounts) (op : CigOp) : PafCounts :=
  if op.op = 'M' then
    { st with m := st.m + op.len, bl := st.bl + op.len }
  else if op.op = '=' then
    { st with m := st.m + op.len, bl := st.bl + op.len }
  else if op.op = 'X' then
    { st with mm := st.mm + op.len, bl := st.bl + op.len }
  else if op.op = 'I' then
    { st with
      i := st.i + 1
      ibp := st.ibp + op.len
      bl := st.bl + op.len }
  else if op.op = 'D' then
    { st with
      d := st.d + 1
      dbp := st.dbp + op.len
      bl := st.bl + op.len }
  else st

/-- The whole fold of `main.rs:796-806`. -/
def pafStats (cigar : List CigOp) : PafCounts :=
  cigar.foldl pafStep ⟨0, 0, 0, 0, 0, 0, 0⟩

/-- The `gap_compressed_identity` of `main.rs:807` (the `f64` division
modelled as exact rational division). -/
def gap_compressed_identity (c : PafCounts) : ℚ :=
  (c.m : ℚ) / ((c.m + c.mm + c.i + c.d : Nat) : ℚ)

/-- The `block_identity` of `main.rs:809-810`, with
`edit_distance = mismatches + inserted_bp + deleted_bp`. -/
def block_identity (c : PafCounts) : ℚ :=
  (c.m : ℚ) / ((c.m + (c.mm + c.ibp + c.dbp) : Nat) : ℚ)

theorem pafStats_go (cigar : List CigOp) : ∀ st : PafCounts,
    (cigar.foldl pafStep st).m = st.m +
      (cigar.map (fun op =>
        if op.op = 'M' ∨ op.op = '=' then op.len else 0)).sum ∧
    (cigar.foldl pafStep st).mm = st.mm +
      (cigar.map (fun op => if op.op = 'X' then op.len else 0)).sum ∧
    (cigar.foldl pafStep st).i = st.i +
      cigar.countP (fun op => op.op = 'I') ∧
    (cigar.foldl pafStep st).ibp = st.ibp +
      (cigar.map (fun op => if op.op = 'I' then op.len else 0)).sum ∧
    (cigar.foldl pafStep st).d = st.d +
      cigar.countP (fun op => op.op = 'D') ∧
    (cigar.foldl pafStep st).dbp = st.dbp +
      (cigar.map (fun op => if op.op = 'D' then op.len else 0)).sum := by
  induction cigar with
  | nil =>
    intro st
    simp
  | cons op rest ih =>
    intro st
    simp only [List.foldl_cons, List.map_cons, List.sum_cons,
      List.countP_cons]
    have h := ih (pafStep st op)
    unfold pafStep at h ⊢
    by_cases h1 : op.op = 'M'
    · simp only [if_pos h1] at h ⊢
      simp [h1, h.1, h.2.1, h.2.2.1, h.2.2.2.1, h.2.2.2.2.1, h.2.2.2.2.2]
      omega
    · simp only [if_neg h1] at h ⊢
      by_cases h2 : op.op = '='
      · simp only [if_pos h2] at h ⊢
        simp [h1, h2, h.1, h.2.1, h.2.2.1, h.2.2.2.1, h.2.2.2.2.1,
          h.2.2.2.2.2]
        omega
      · simp only [if_neg h2] at h ⊢
        by_cases h3 : op.op = 'X'
        · simp only [if_pos h3] at h ⊢
          simp [h1, h2, h3, h.1, h.2.1, h.2.2.1, h.2.2.2.1, h.2.2.2.2.1,
            h.2.2.2.2.2]
          omega
        · simp only [if_neg h3] at h ⊢
          by_cases h4 : op.op = 'I'
          · simp only [if_pos h4] at h ⊢
            simp [h1, h2, h3, h4, h.1, h.2.1, h.2.2.1, h.2.2.2.1,
              h.2.2.2.2.1, h.2.2.2.2.2]
            omega
          · simp only [if_neg h4] at h ⊢
            by_cases h5 : op.op = 'D'
            · simp only [if_pos h5] at h ⊢
              simp [h1, h2, h3, h4, h5, h.1, h.2.1, h.2.2.1, h.2.2.2.1,
                h.2.2.2.2.1, h.2.2.2.2.2]
              omega
            · simp only [if_neg h5] at h ⊢
              simp [h1, h2, h3, h4, h5, h.1, h.2.1, h.2.2.1, h.2.2.2.1,
                h.2.2.2.2.1, h.2.2.2.2.2]

/-- Claim C9: in the PAF output tallies, every `=` and `M` op adds its
length to matches, every `X` its length to mismatches, every `I` exactly
1 to the insertion event count and its length to inserted base pairs,
every `D` exactly 1 to the deletion event count and its length to
deleted base pairs; gap-compressed identity is
matches / (matches + mismatches + insertion events + deletion events)
and block identity is
matches / (matches + mismatches + inserted bp + deleted bp). -/
theorem paf_identity_tallies (cigar : List CigOp) :
    (pafStats cigar).m = (cigar.map (fun op =>
      if op.op = 'M' ∨ op.op = '=' then op.len else 0)).sum ∧
    (pafStats cigar).mm = (cigar.map (fun op =>
      if op.op = 'X' then op.len else 0)).sum ∧
    (pafStats cigar).i = cigar.countP (fun op => op.op = 'I') ∧
    (pafStats cigar).ibp = (cigar.map (fun op =>
      if op.op = 'I' then op.len else 0)).sum ∧
    (pafStats cigar).d = cigar.countP (fun op => op.op = 'D') ∧
    (pafStats cigar).dbp = (cigar.map (fun op =>
      if op.op = 'D' then op.len else 0)).sum ∧
    gap_compressed_identity (pafStats cigar) =
      ((pafStats cigar).m : ℚ) / (((pafStats cigar).m +
        (pafStats cigar).mm + (pafStats cigar).i +
        (pafStats cigar).d : Nat) : ℚ) ∧
    block_identity (pafStats cigar) =
      ((pafStats cigar).m : ℚ) / (((pafStats cigar).m +
        ((pafStats cigar).mm + (pafStats cigar).ibp +
        (pafStats cigar).dbp) : Nat) : ℚ) := by
  have h := pafStats_go cigar ⟨0, 0, 0, 0, 0, 0, 0⟩
  unfold pafStats
  refine ⟨?_, ?_, ?_, ?_, ?_, ?_, rfl, rfl⟩
  · rw [h.1]
    simp
  · rw [h.2.1]
    simp
  · rw [h.2.2.1]
    simp
  · rw [h.2.2.2.1]
    simp
  · rw [h.2.2.2.2.1]
    simp
  · rw [h.2.2.2.2.2]
    simp

/-! ### The partitioner loop of `partition_alignments` (`main.rs:242-476`)

The sequence index is a list of (name, length) pairs, the dense id of a
sequence being its position (names are `List Char`; Rust `starts_with`
on UTF-8 strings is byte-prefix, i.e. list-prefix).  The library call
`impg.query_transitive` lives outside `src/` and enters the model as an
opaque function parameter `query`. -/

/-- Name of the sequence with dense id `id`. -/
def seqNameOf (S : List (List Char × Nat)) (id : Nat) : List Char :=
  (S.getD id ([], 0)).1

/-- Length of the sequence with dense id `id`
(`impg.seq_index.get_len_from_id`). -/
def seqLenOf (S : List (List Char × Nat)) (id : Nat) : Nat :=
  (S.getD id ([], 0)).2

/-- Structural worker for the window tiling: the fuel starts at
`e - pos` and strictly dominates the number of iterations whenever
`0 < W`, so the fuel never runs out on the guarded path. -/
def tileWindowsGo (W id : Nat) : Nat → Nat → Nat → List (Nat × Nat × Nat)
  | 0, _, _ => []
  | fuel + 1, pos, e =>
    if pos < e ∧ 0 < W then
      (id, pos, min (pos + W) e) ::
        tileWindowsGo W id fuel (min (pos + W) e) e
    else []

/-- The window tiling loops of `main.rs:267-274` and `main.rs:461-468`:
`while pos < end { push (chrom, pos, min(pos + W, end)); pos = ... }`.
(When `W = 0` the Rust loop never terminates; the model returns `[]`
there, and every theorem about the loop assumes `0 < W`.) -/
def tileWindows (W id : Nat) (pos e : Nat) : List (Nat × Nat × Nat) :=
  tileWindowsGo W id (e - pos) pos e

/-- Partitioner state: the two region maps, the partition counter and
the partition files emitted so far (each file a list of
`(sequence id, start, end)` lines). -/
structure PState where
  masked : List (Nat × List (Nat × Nat))
  missing : List (Nat × List (Nat × Nat))
  partitionNum : Nat
  partitions : List (List (Nat × Int × Int))
deriving DecidableEq, Repr

/-- Abnormal outcomes: the early `NotFound` return of `main.rs:258-263`,
the `panic!("No overlaps found for region ...")` of `main.rs:434`
(carrying the region), and exhaustion of the termination fuel. -/
inductive PErr where
  | noSeqs
  | noOverlaps (chrom start e : Nat)
  | fuelOut
deriving DecidableEq, Repr

/-- One line of a partition file, `main.rs:422-429`: the query interval
normalized to `start <= end`. -/
def partitionLine (ov : Overlap) : Nat × Int × Int :=
  if ov.q.first ≤ ov.q.last then (ov.q.metadata, ov.q.first, ov.q.last)
  else (ov.q.metadata, ov.q.last, ov.q.first)

/-- The body of the `for (chrom, start, end) in windows.iter()` loop,
`main.rs:324-436`: query, near-merge, mask subtraction; abort when
nothing survives, otherwise update the region maps, extend short
intervals, and emit one partition file. -/
def processWindow (query : Nat → Int → Int → List Overlap)
    (S : List (List Char × Nat)) (L : Nat) (st : PState)
    (w : Nat × Nat × Nat) : Except PErr PState :=
  if (subtract_masked_regions st.masked
      (partitionMerge (query w.1 (w.2.1 : Int) (w.2.2 : Int)))).isEmpty then
    .error (.noOverlaps w.1 w.2.1 w.2.2)
  else
    .ok
      { masked := (update_masked_and_missing_regions st.masked st.missing
          (subtract_masked_regions st.masked
            (partitionMerge (query w.1 (w.2.1 : Int) (w.2.2 : Int))))).1
        missing := (update_masked_and_missing_regions st.masked st.missing
          (subtract_masked_regions st.masked
            (partitionMerge (query w.1 (w.2.1 : Int) (w.2.2 : Int))))).2
        partitionNum := st.partitionNum + 1
        partitions := st.partitions ++
          [(extend_short_intervals (seqLenOf S) L
            (subtract_masked_regions st.masked
              (partitionMerge (query w.1 (w.2.1 : Int) (w.2.2 : Int))))).map
            partitionLine] }

/-- The whole window loop; a panic aborts the run. -/
def processWindows (query : Nat → Int → Int → List Overlap)
    (S : List (List Char × Nat)) (L : Nat) :
    List (Nat × Nat × Nat) → PState → Except PErr PState
  | [], st => .ok st
  | w :: ws, st =>
    match processWindow query S L st w with
    | .error e => .error e
    | .ok st2 => processWindows query S L ws st2

/-- One comparison of the longest-missing-region scan,
`main.rs:450-458` (`if length > max_length`). -/
def longerOf (acc : Option (Nat × Nat × Nat) × Nat) (seq : Nat)
    (r : Nat × Nat) : Option (Nat × Nat × Nat) × Nat :=
  if r.2 - r.1 > acc.2 then (some (seq, r.1, r.2), r.2 - r.1) else acc

/-- The longest-missing-region scan of `main.rs:446-458` (the `HashMap`
iteration order is unspecified in Rust; the model scans in list order,
one admissible behaviour). -/
def findLongest (missing : List (Nat × List (Nat × Nat))) :
    Option (Nat × Nat × Nat) :=
  (missing.foldl (fun acc e => e.2.foldl (fun a r => longerOf a e.1 r) acc)
    (none, 0)).1

/-- The `while !windows.is_empty()` loop of `main.rs:299-471`, with a
fuel parameter to make the (not always terminating) loop a total
function; exhausting the fuel is reported as a distinct error. -/
def partitionLoop (query : Nat → Int → Int → List Overlap)
    (S : List (List Char × Nat)) (L W : Nat) :
    Nat → List (Nat × Nat × Nat) → PState → Except PErr PState
  | 0, _, _ => .error .fuelOut
  | fuel + 1, windows, st =>
    if windows.isEmpty then .ok st
    else
      match processWindows query S L windows st with
      | .error e => .error e
      | .ok st2 =>
        if st2.missing.isEmpty then .ok st2
        else
          partitionLoop query S L W fuel
            (match findLongest st2.missing with
             | none => []
             | some r => tileWindows W r.1 r.2.1 r.2.2) st2

/-- Whole `partition_alignments`, `main.rs:242-476`: collect the
prefix-matching sequences (error when none), tile them into the initial
windows, initialize `masked_regions` empty and `missing_regions` with
the full span of every indexed sequence, and run the loop. -/
def partition_alignments (query : Nat → Int → Int → List Overlap)
    (S : List (List Char × Nat)) (W : Nat) (pfx : List Char) (L : Nat)
    (fuel : Nat) : Except PErr PState :=
  if ((List.range S.length).filter
      (fun id => pfx.isPrefixOf (seqNameOf S id))).isEmpty then
    .error .noSeqs
  else
    partitionLoop query S L W fuel
      (((List.range S.length).filter
        (fun id => pfx.isPrefixOf (seqNameOf S id))).flatMap
        (fun id => tileWindows W id 0 (seqLenOf S id)))
      ⟨[], (List.range S.length).map (fun id => (id, [(0, seqLenOf S id)])),
        0, []⟩

/-! ### Well-formedness of query intervals, and its preservation through
the near-merge and the mask subtraction -/

/-- A query interval is sane for the sequence index `S`: its sequence id
is indexed, and its normalized span is a nonempty subrange of
`[0, sequence length)`.  The overlaps returned by `impg.query_transitive`
satisfy this (intervals of indexed sequences, within bounds); it is the
hypothesis under which the partitioner loop is analysed. -/
def SaneIv (S : List (List Char × Nat)) (iv : Iv) : Prop :=
  iv.metadata < S.length ∧ 0 ≤ ivMin iv ∧ ivMin iv < ivMax iv ∧
    ivMax iv ≤ (seqLenOf S iv.metadata : Int)

instance saneIvDec (S : List (List Char × Nat)) (iv : Iv) :
    Decidable (SaneIv S iv) := by
  unfold SaneIv
  infer_instance

theorem saneIv_merge (S : List (List Char × Nat)) (cur iv : Iv)
    (h1 : SaneIv S cur) (h2 : SaneIv S iv) (hm : iv.metadata = cur.metadata) :
    SaneIv S ⟨min (ivMin cur) (ivMin iv), max (ivMax cur) (ivMax iv),
      cur.metadata⟩ := by
  obtain ⟨ha1, ha2, ha3, ha4⟩ := h1
  obtain ⟨hb1, hb2, hb3, hb4⟩ := h2
  rw [hm] at hb4
  refine ⟨ha1, ?_, ?_, ?_⟩ <;>
    (simp only [ivMin, ivMax] at *; omega)

theorem specMergeRunAcc_sane (S : List (List Char × Nat)) (l : List Iv) :
    ∀ cur, SaneIv S cur → (∀ iv ∈ l, SaneIv S iv) →
      (∀ g ∈ (specMergeRunAcc cur l).1, SaneIv S g) ∧
        SaneIv S (specMergeRunAcc cur l).2 := by
  induction l with
  | nil =>
    intro cur hcur _
    simp only [specMergeRunAcc]
    exact ⟨by intro g hg; simp at hg, hcur⟩
  | cons iv rest ih =>
    intro cur hcur hl
    simp only [specMergeRunAcc]
    by_cases h : iv.metadata = cur.metadata ∧ ivMin iv ≤ ivMax cur + 10000
    · rw [if_pos h]
      exact ih _
        (saneIv_merge S cur iv hcur (hl iv (List.mem_cons_self _ _)) h.1)
        (fun j hj => hl j (List.mem_cons_of_mem _ hj))
    · rw [if_neg h]
      have hp := ih iv (hl iv (List.mem_cons_self _ _))
        (fun j hj => hl j (List.mem_cons_of_mem _ hj))
      dsimp only
      refine ⟨?_, hp.2⟩
      intro g hg
      rcases List.mem_cons.mp hg with h1 | h1
      · exact h1 ▸ hcur
      · exact hp.1 g h1

theorem partitionMerge_sane (S : List (List Char × Nat))
    (ovs : List Overlap) (h : ∀ ov ∈ ovs, SaneIv S ov.q) :
    ∀ ov ∈ partitionMerge ovs, SaneIv S ov.q := by
  intro ov hov
  have hq : ov.q ∈ (partitionMerge ovs).map (fun o => o.q) :=
    List.mem_map_of_mem _ hov
  rw [partitionMerge_q_eq] at hq
  have hall : ∀ iv ∈ (sortOverlaps ovs).map (fun o => o.q), SaneIv S iv := by
    intro iv hiv
    rcases List.mem_map.mp hiv with ⟨o, ho, rfl⟩
    exact h o ((stableSort_perm mergeKeyLe ovs).mem_iff.mp ho)
  cases hmap : (sortOverlaps ovs).map (fun o => o.q) with
  | nil =>
    rw [hmap] at hq
    simp [specMergeNear] at hq
  | cons q0 qrest =>
    rw [hmap] at hq hall
    simp only [specMergeNear] at hq
    rw [specMergeRun_eq_acc] at hq
    have hs := specMergeRunAcc_sane S qrest q0
      (hall q0 (List.mem_cons_self _ _))
      (fun j hj => hall j (List.mem_cons_of_mem _ hj))
    rcases List.mem_append.mp hq with h1 | h1
    · exact hs.1 _ h1
    · rw [List.mem_singleton] at h1
      exact h1 ▸ hs.2

theorem subtractOv_sane (S : List (List Char × Nat))
    (masked : List (Nat × List (Nat × Nat))) (ov : Overlap)
    (h : SaneIv S ov.q) : ∀ o2 ∈ subtractOv masked ov, SaneIv S o2.q := by
  intro o2 ho2
  cases hm : lookupA masked ov.q.metadata with
  | none =>
    have heq : subtractOv masked ov = [ov] := by
      unfold subtractOv
      rw [hm]
    rw [heq, List.mem_singleton] at ho2
    exact ho2 ▸ h
  | some masks =>
    have heq : subtractOv masked ov =
        (unmaskedSegments (ivMax ov.q).toNat (ivMin ov.q).toNat masks).map
          (fun seg =>
            ⟨⟨(seg.1 : Int), (seg.2 : Int), ov.q.metadata⟩, ov.cigar,
             scaleTarget ov.target (ivMin ov.q).toNat (ivMax ov.q).toNat
               seg.1 seg.2⟩) := by
      unfold subtractOv
      rw [hm]
    rw [heq] at ho2
    rcases List.mem_map.mp ho2 with ⟨seg, hseg, rfl⟩
    have hsh := unmaskedSegments_shape masks (ivMax ov.q).toNat
      (ivMin ov.q).toNat seg hseg
    obtain ⟨h1, h2, h3, h4⟩ := h
    refine ⟨?_, ?_, ?_, ?_⟩ <;>
      (simp only [ivMin, ivMax] at *; omega)

theorem subtract_sane (S : List (List Char × Nat))
    (masked : List (Nat × List (Nat × Nat))) (ovs : List Overlap)
    (h : ∀ ov ∈ ovs, SaneIv S ov.q) :
    ∀ o2 ∈ subtract_masked_regions masked ovs, SaneIv S o2.q := by
  intro o2 ho2
  unfold subtract_masked_regions at ho2
  rcases List.mem_flatMap.mp ho2 with ⟨ov, hov, h2⟩
  exact subtractOv_sane S masked ov (h ov hov) o2 h2

/-! ### Coverage of positions by the emitted partition lines -/

/-- Position `x` of sequence `s` is covered by some line of some emitted
partition file. -/
def PartLines (parts : List (List (Nat × Int × Int))) (s x : Nat) : Prop :=
  ∃ f ∈ parts, ∃ ln ∈ f, ln.1 = s ∧ ln.2.1 ≤ (x : Int) ∧ (x : Int) < ln.2.2

instance partLinesDec (parts : List (List (Nat × Int × Int))) (s x : Nat) :
    Decidable (PartLines parts s x) := by
  unfold PartLines
  infer_instance

theorem partLines_append (parts more : List (List (Nat × Int × Int)))
    (s x : Nat) (h : PartLines parts s x) : PartLines (parts ++ more) s x := by
  obtain ⟨f, hf, rest⟩ := h
  exact ⟨f, List.mem_append_left _ hf, rest⟩

/-- A half-open range of positions all satisfying `P` up to unit gaps
whose predecessor satisfies `P`, with the last position satisfying `P`
outright.  The masked ranges maintain this for
`P = coverage by the partition lines` throughout the partitioner loop. -/
def GoodR (P : Nat → Prop) (r : Nat × Nat) : Prop :=
  r.1 < r.2 ∧ (∀ x, r.1 ≤ x → x < r.2 → P x ∨ (1 ≤ x ∧ P (x - 1))) ∧
    P (r.2 - 1)

theorem goodR_mono {P Q : Nat → Prop} (h : ∀ x, P x → Q x) (r : Nat × Nat)
    (hg : GoodR P r) : GoodR Q r := by
  refine ⟨hg.1, fun x h1 h2 => ?_, h _ hg.2.2⟩
  rcases hg.2.1 x h1 h2 with h3 | h3
  · exact Or.inl (h x h3)
  · exact Or.inr ⟨h3.1, h _ h3.2⟩

/-- Two members of a separated list are equal or separated (in one of the
two orders). -/
theorem sep_mem_cases {l : List (Nat × Nat)}
    (hsep : l.Pairwise (fun a b => a.2 + 1 < b.1)) {a b : Nat × Nat}
    (ha : a ∈ l) (hb : b ∈ l) :
    a = b ∨ a.2 + 1 < b.1 ∨ b.2 + 1 < a.1 := by
  induction l with
  | nil => simp at ha
  | cons x xs ih =>
    have hx := List.pairwise_cons.mp hsep
    rcases List.mem_cons.mp ha with rfl | ha' <;>
      rcases List.mem_cons.mp hb with h | hb'
    · exact Or.inl h.symm
    · exact Or.inr (Or.inl (hx.1 b hb'))
    · exact h ▸ Or.inr (Or.inr (hx.1 a ha'))
    · exact ih hx.2 ha' hb'

/-- `merge_ranges` preserves `GoodR`: every merged range again satisfies
the unit-gap coverage property (the only new positions are unit gaps
pinched between covered neighbours, and their predecessor is the last
position of an input range). -/
theorem merge_ranges_good (P : Nat → Prop) (l : List (Nat × Nat))
    (hne : ∀ r ∈ l, r.1 < r.2) (hg : ∀ r ∈ l, GoodR P r) :
    ∀ r ∈ merge_ranges l, GoodR P r := by
  intro r hr
  have hsep := merge_ranges_sep l
  have hnem := merge_ranges_nonempty l hne r hr
  have hnc : ¬covers (merge_ranges l) r.2 := by
    rintro ⟨r2, hr2, ha2, hb2⟩
    rcases sep_mem_cases hsep hr hr2 with h | h | h
    · rw [← h] at hb2
      omega
    · omega
    · omega
  refine ⟨hnem, ?_, ?_⟩
  · intro x h1 h2
    have hcov : covers (merge_ranges l) x := ⟨r, hr, h1, h2⟩
    rw [merge_ranges_covers l hne] at hcov
    by_cases hx : covers l x
    · obtain ⟨r', hr', ha, hb⟩ := hx
      exact (hg r' hr').2.1 x ha hb
    · rcases hcov with hc | ⟨hx1, hxm, _⟩
      · exact absurd hc hx
      · obtain ⟨r', hr', ha, hb⟩ := hxm
        refine Or.inr ⟨hx1, ?_⟩
        have hxr : x = r'.2 := by
          by_contra hne2
          exact hx ⟨r', hr', by omega, by omega⟩
        have heq : x - 1 = r'.2 - 1 := by omega
        rw [heq]
        exact (hg r' hr').2.2
  · have hcov : covers (merge_ranges l) (r.2 - 1) :=
      ⟨r, hr, by omega, by omega⟩
    rw [merge_ranges_covers l hne] at hcov
    rcases hcov with ⟨r', hr', ha, hb⟩ | ⟨hge, _, hp⟩
    · have hr'2 : r'.2 = r.2 := by
        by_contra h2
        apply hnc
        rw [merge_ranges_covers l hne]
        exact Or.inl ⟨r', hr', by omega, by omega⟩
      have heq : r.2 - 1 = r'.2 - 1 := by omega
      rw [heq]
      exact (hg r' hr').2.2
    · exfalso
      apply hnc
      rw [merge_ranges_covers l hne]
      left
      have heq : r.2 - 1 + 1 = r.2 := by omega
      rw [heq] at hp
      exact hp

/-! ### The pairs recorded by `groupSpans` come from the overlaps -/

theorem pairIn_appendA {m : List (Nat × List (Nat × Nat))} {k : Nat}
    {v r : Nat × Nat} {s : Nat} {sp : List (Nat × Nat)}
    (h : (s, sp) ∈ appendA m k v) (hr : r ∈ sp) :
    (∃ sp2, (s, sp2) ∈ m ∧ r ∈ sp2) ∨ (s = k ∧ r = v) := by
  induction m with
  | nil =>
    simp [appendA] at h
    obtain ⟨hs, hsp⟩ := h
    subst hs
    subst hsp
    rw [List.mem_singleton] at hr
    exact Or.inr ⟨rfl, hr⟩
  | cons e rest ih =>
    simp only [appendA] at h
    by_cases he : e.1 = k
    · rw [if_pos he] at h
      rcases List.mem_cons.mp h with h1 | h1
      · rw [Prod.mk.injEq] at h1
        obtain ⟨hs, hsp⟩ := h1
        subst hsp
        rcases List.mem_append.mp hr with h2 | h2
        · left
          refine ⟨e.2, ?_, h2⟩
          rw [hs]
          exact List.mem_cons_self _ _
        · rw [List.mem_singleton] at h2
          exact Or.inr ⟨hs.trans he, h2⟩
      · exact Or.inl ⟨sp, List.mem_cons_of_mem _ h1, hr⟩
    · rw [if_neg he] at h
      rcases List.mem_cons.mp h with h1 | h1
      · left
        refine ⟨sp, ?_, hr⟩
        rw [h1]
        exact List.mem_cons_self _ _
      · rcases ih h1 with ⟨sp2, h2, h3⟩ | h2
        · exact Or.inl ⟨sp2, List.mem_cons_of_mem _ h2, h3⟩
        · exact Or.inr h2

theorem groupSpans_mem (ovs : List Overlap) :
    ∀ s sp, (s, sp) ∈ groupSpans ovs → ∀ r ∈ sp,
      ∃ ov ∈ ovs, ov.q.metadata = s ∧ r = spanOf ov.q := by
  unfold groupSpans
  suffices h : ∀ acc : List (Nat × List (Nat × Nat)), ∀ s sp,
      (s, sp) ∈ ovs.foldl
        (fun m ov => appendA m ov.q.metadata (spanOf ov.q)) acc →
      ∀ r ∈ sp, (∃ sp2, (s, sp2) ∈ acc ∧ r ∈ sp2) ∨
        ∃ ov ∈ ovs, ov.q.metadata = s ∧ r = spanOf ov.q by
    intro s sp hmem r hr
    rcases h [] s sp hmem r hr with ⟨sp2, h2, _⟩ | h2
    · simp at h2
    · exact h2
  induction ovs with
  | nil =>
    intro acc s sp hmem r hr
    exact Or.inl ⟨sp, hmem, hr⟩
  | cons ov rest ih =>
    intro acc s sp hmem r hr
    simp only [List.foldl_cons] at hmem
    rcases ih (appendA acc ov.q.metadata (spanOf ov.q)) s sp hmem r hr with
      ⟨sp2, h2, h3⟩ | h2
    · rcases pairIn_appendA h2 h3 with ⟨sp3, h4, h5⟩ | ⟨h4, h5⟩
      · exact Or.inl ⟨sp3, h4, h5⟩
      · exact Or.inr ⟨ov, List.mem_cons_self _ _, h4.symm, h5⟩
    · rcases h2 with ⟨ov2, ho, hrest⟩
      exact Or.inr ⟨ov2, List.mem_cons_of_mem _ ho, hrest⟩

/-! ### Spans, partition lines and the extension step -/

theorem spanOf_eq (iv : Iv) :
    spanOf iv = ((ivMin iv).toNat, (ivMax iv).toNat) := by
  unfold spanOf ivMin ivMax
  by_cases h : iv.first ≤ iv.last
  · rw [if_pos h, min_eq_left h, max_eq_right h]
  · rw [if_neg h, min_eq_right (by omega), max_eq_left (by omega)]

theorem spanOf_pos (S : List (List Char × Nat)) (iv : Iv)
    (h : SaneIv S iv) :
    (spanOf iv).1 < (spanOf iv).2 ∧
      (spanOf iv).2 ≤ seqLenOf S iv.metadata := by
  obtain ⟨h1, h2, h3, h4⟩ := h
  rw [spanOf_eq]
  refine ⟨?_, ?_⟩ <;> (dsimp only; omega)

theorem partitionLine_eq (ov : Overlap) :
    partitionLine ov = (ov.q.metadata, ivMin ov.q, ivMax ov.q) := by
  unfold partitionLine ivMin ivMax
  by_cases h : ov.q.first ≤ ov.q.last
  · rw [if_pos h, min_eq_left h, max_eq_right h]
  · rw [if_neg h, min_eq_right (by omega), max_eq_left (by omega)]

/-- `extendOne` never shrinks the (normalized) query interval of a sane
overlap and keeps its sequence id. -/
theorem extendOne_supset (S : List (List Char × Nat)) (L : Nat)
    (ov : Overlap) (h : SaneIv S ov.q) :
    (extendOne (seqLenOf S) L ov).q.metadata = ov.q.metadata ∧
    ivMin (extendOne (seqLenOf S) L ov).q ≤ ivMin ov.q ∧
    ivMax ov.q ≤ ivMax (extendOne (seqLenOf S) L ov).q := by
  obtain ⟨h1, h2, h3, h4⟩ := h
  unfold extendOne
  by_cases hs : (ov.q.last - ov.q.first).natAbs < L
  · rw [if_pos hs]
    by_cases hf : ov.q.first ≤ ov.q.last
    · rw [if_pos hf]
      refine ⟨rfl, ?_, ?_⟩ <;> (simp only [ivMin, ivMax] at *; omega)
    · rw [if_neg hf]
      refine ⟨rfl, ?_, ?_⟩ <;> (simp only [ivMin, ivMax] at *; omega)
  · rw [if_neg hs]
    exact ⟨rfl, le_refl _, le_refl _⟩

/-- Every position of a sane overlap's normalized span is covered by the
partition line written for its extension. -/
theorem extendOne_line_covers (S : List (List Char × Nat)) (L : Nat)
    (ov : Overlap) (h : SaneIv S ov.q) (x : Nat)
    (h1 : (spanOf ov.q).1 ≤ x) (h2 : x < (spanOf ov.q).2) :
    (partitionLine (extendOne (seqLenOf S) L ov)).1 = ov.q.metadata ∧
    (partitionLine (extendOne (seqLenOf S) L ov)).2.1 ≤ (x : Int) ∧
    (x : Int) < (partitionLine (extendOne (seqLenOf S) L ov)).2.2 := by
  obtain ⟨hm, ha, hb⟩ := extendOne_supset S L ov h
  rw [partitionLine_eq]
  rw [spanOf_eq] at h1 h2
  obtain ⟨hq1, hq2, hq3, hq4⟩ := h
  refine ⟨hm, ?_, ?_⟩ <;> (dsimp only at h1 h2 ⊢; omega)

/-! ### The longest-missing-region scan finds a nonempty region -/

theorem longerOf_snd_mono (acc : Option (Nat × Nat × Nat) × Nat)
    (seq : Nat) (r : Nat × Nat) : acc.2 ≤ (longerOf acc seq r).2 := by
  unfold longerOf
  by_cases h : r.2 - r.1 > acc.2
  · rw [if_pos h]
    dsimp only
    omega
  · rw [if_neg h]

theorem longerOf_snd_pos (acc : Option (Nat × Nat × Nat) × Nat)
    (seq : Nat) (r : Nat × Nat) (h : r.1 < r.2) :
    0 < (longerOf acc seq r).2 := by
  unfold longerOf
  by_cases h2 : r.2 - r.1 > acc.2
  · rw [if_pos h2]
    dsimp only
    omega
  · rw [if_neg h2]
    omega

theorem longerOf_good (acc : Option (Nat × Nat × Nat) × Nat) (seq : Nat)
    (r : Nat × Nat)
    (h : 0 < acc.2 → ∃ s a b, acc.1 = some (s, a, b) ∧ a < b) :
    0 < (longerOf acc seq r).2 →
      ∃ s a b, (longerOf acc seq r).1 = some (s, a, b) ∧ a < b := by
  unfold longerOf
  by_cases h2 : r.2 - r.1 > acc.2
  · rw [if_pos h2]
    dsimp only
    intro _
    exact ⟨seq, r.1, r.2, rfl, by omega⟩
  · rw [if_neg h2]
    exact h

theorem foldRanges_snd_mono (seq : Nat) (rs : List (Nat × Nat)) :
    ∀ acc, acc.2 ≤ (rs.foldl (fun a r => longerOf a seq r) acc).2 := by
  induction rs with
  | nil => intro acc; exact le_refl _
  | cons r rest ih =>
    intro acc
    simp only [List.foldl_cons]
    exact (longerOf_snd_mono acc seq r).trans (ih _)

theorem foldRanges_good (seq : Nat) (rs : List (Nat × Nat)) :
    ∀ acc, (0 < acc.2 → ∃ s a b, acc.1 = some (s, a, b) ∧ a < b) →
      0 < (rs.foldl (fun a r => longerOf a seq r) acc).2 →
      ∃ s a b,
        (rs.foldl (fun a r => longerOf a seq r) acc).1 = some (s, a, b) ∧
          a < b := by
  induction rs with
  | nil => intro acc h; exact h
  | cons r rest ih =>
    intro acc h
    simp only [List.foldl_cons]
    exact ih _ (longerOf_good acc seq r h)

theorem foldRanges_pos (seq : Nat) (rs : List (Nat × Nat)) :
    ∀ acc (r : Nat × Nat), r ∈ rs → r.1 < r.2 →
      0 < (rs.foldl (fun a r => longerOf a seq r) acc).2 := by
  induction rs with
  | nil =>
    intro acc r hr
    simp at hr
  | cons y ys ih =>
    intro acc r hr hpos
    simp only [List.foldl_cons]
    rcases List.mem_cons.mp hr with rfl | hr'
    · exact lt_of_lt_of_le (longerOf_snd_pos acc seq r hpos)
        (foldRanges_snd_mono seq ys _)
    · exact ih _ r hr' hpos

theorem foldEntries_snd_mono (ms : List (Nat × List (Nat × Nat))) :
    ∀ acc : Option (Nat × Nat × Nat) × Nat, acc.2 ≤
      (ms.foldl (fun ac e => e.2.foldl (fun a r => longerOf a e.1 r) ac)
        acc).2 := by
  induction ms with
  | nil => intro acc; exact le_refl _
  | cons e rest ih =>
    intro acc
    simp only [List.foldl_cons]
    exact (foldRanges_snd_mono e.1 e.2 acc).trans (ih _)

theorem foldEntries_good (ms : List (Nat × List (Nat × Nat))) :
    ∀ acc : Option (Nat × Nat × Nat) × Nat,
      (0 < acc.2 → ∃ s a b, acc.1 = some (s, a, b) ∧ a < b) →
      0 < (ms.foldl
        (fun ac e => e.2.foldl (fun a r => longerOf a e.1 r) ac) acc).2 →
      ∃ s a b,
        (ms.foldl (fun ac e => e.2.foldl (fun a r => longerOf a e.1 r) ac)
          acc).1 = some (s, a, b) ∧ a < b := by
  induction ms with
  | nil => intro acc h; exact h
  | cons e rest ih =>
    intro acc h
    simp only [List.foldl_cons]
    exact ih _ (foldRanges_good e.1 e.2 acc h)

theorem foldEntries_pos (ms : List (Nat × List (Nat × Nat))) :
    ∀ (acc : Option (Nat × Nat × Nat) × Nat) (e : Nat × List (Nat × Nat)),
      e ∈ ms → ∀ r ∈ e.2, r.1 < r.2 →
      0 < (ms.foldl
        (fun ac e => e.2.foldl (fun a r => longerOf a e.1 r) ac) acc).2 := by
  induction ms with
  | nil =>
    intro acc e he
    simp at he
  | cons y ys ih =>
    intro acc e he r hr hpos
    simp only [List.foldl_cons]
    rcases List.mem_cons.mp he with rfl | he'
    · exact lt_of_lt_of_le (foldRanges_pos e.1 e.2 acc r hr hpos)
        (foldEntries_snd_mono ys _)
    · exact ih _ e he' r hr hpos

/-- When some missing entry holds a nonempty range, the scan returns a
region with a strictly positive length. -/
theorem findLongest_pos (missing : List (Nat × List (Nat × Nat)))
    (e : Nat × List (Nat × Nat)) (he : e ∈ missing) (r : Nat × Nat)
    (hr : r ∈ e.2) (hpos : r.1 < r.2) :
    ∃ s a b, findLongest missing = some (s, a, b) ∧ a < b := by
  unfold findLongest
  exact foldEntries_good missing (none, 0) (by intro h; simp at h)
    (foldEntries_pos missing (none, 0) e he r hr hpos)

/-- A window range with a positive length yields at least one window. -/
theorem tileWindows_ne (W id a b : Nat) (hW : 0 < W) (h : a < b) :
    tileWindows W id a b ≠ [] := by
  unfold tileWindows
  obtain ⟨f, hf⟩ : ∃ f, b - a = f + 1 := ⟨b - a - 1, by omega⟩
  rw [hf]
  simp only [tileWindowsGo]
  rw [if_pos ⟨h, hW⟩]
  simp

/-! ### Lookup in the initial missing-regions map -/

theorem lookupA_append {β : Type} (a b : List (Nat × β)) (k : Nat) :
    lookupA (a ++ b) k = match lookupA a k with
      | some v => some v
      | none => lookupA b k := by
  induction a with
  | nil => simp [lookupA]
  | cons e rest ih =>
    simp only [List.cons_append, lookupA]
    by_cases h : e.1 = k
    · rw [if_pos h, if_pos h]
    · rw [if_neg h, if_neg h]
      exact ih

theorem lookupA_mapRange (n k : Nat) (f : Nat → List (Nat × Nat)) :
    lookupA ((List.range n).map (fun id => (id, f id))) k =
      if k < n then some (f k) else none := by
  induction n with
  | zero => simp [lookupA]
  | succ m ih =>
    rw [List.range_succ, List.map_append, lookupA_append, ih]
    by_cases h : k < m
    · rw [if_pos h, if_pos (by omega)]
    · rw [if_neg h]
      simp only [List.map_cons, List.map_nil, lookupA]
      by_cases h2 : m = k
      · rw [if_pos h2, h2, if_pos (by omega)]
      · rw [if_neg h2, if_neg (by omega)]

theorem foldUpd_nodupKeys (G : List (Nat × List (Nat × Nat))) :
    ∀ mm : List (Nat × List (Nat × Nat)) × List (Nat × List (Nat × Nat)),
      ((mm.2).map (fun e => e.1)).Nodup →
      (((G.foldl updStep mm).2).map (fun e => e.1)).Nodup := by
  induction G with
  | nil => intro mm h; exact h
  | cons e rest ih =>
    intro mm h
    simp only [List.foldl_cons]
    exact ih _ (updStep_nodupKeys mm e h)

/-- Claim C7: for every processed window, if the list of overlaps
surviving mask subtraction is empty the partitioner aborts with an error
identifying the region and emits no partition file; otherwise exactly one
partition file is written (the extended survivors) and the partition
counter is incremented by one. -/
theorem window_abort_or_one_partition
    (query : Nat → Int → Int → List Overlap) (S : List (List Char × Nat))
    (L : Nat) (st : PState) (w : Nat × Nat × Nat) :
    ((subtract_masked_regions st.masked
        (partitionMerge (query w.1 (w.2.1 : Int) (w.2.2 : Int)))).isEmpty =
          true →
      processWindow query S L st w = .error (.noOverlaps w.1 w.2.1 w.2.2)) ∧
    ((subtract_masked_regions st.masked
        (partitionMerge (query w.1 (w.2.1 : Int) (w.2.2 : Int)))).isEmpty =
          false →
      processWindow query S L st w = .ok
        ⟨(update_masked_and_missing_regions st.masked st.missing
            (subtract_masked_regions st.masked
              (partitionMerge (query w.1 (w.2.1 : Int) (w.2.2 : Int))))).1,
         (update_masked_and_missing_regions st.masked st.missing
            (subtract_masked_regions st.masked
              (partitionMerge (query w.1 (w.2.1 : Int) (w.2.2 : Int))))).2,
         st.partitionNum + 1,
         st.partitions ++
          [(extend_short_intervals (seqLenOf S) L
            (subtract_masked_regions st.masked
              (partitionMerge (query w.1 (w.2.1 : Int) (w.2.2 : Int))))).map
            partitionLine]⟩ ∧
      (st.partitions ++
          [(extend_short_intervals (seqLenOf S) L
            (subtract_masked_regions st.masked
              (partitionMerge (query w.1 (w.2.1 : Int) (w.2.2 : Int))))).map
            partitionLine]).length = st.partitions.length + 1) := by
  constructor
  · intro h
    unfold processWindow
    rw [if_pos h]
  · intro h
    unfold processWindow
    rw [if_neg (by rw [h]; exact Bool.false_ne_true)]
    exact ⟨rfl, by simp⟩

theorem window_abort_or_one_partition_witness :
    processWindow (fun _ _ _ => [⟨⟨0, 4, 0⟩, [], ⟨0, 4, 0⟩⟩]) [(['S'], 4)] 0
        ⟨[], [(0, [(0, 4)])], 0, []⟩ (0, 0, 4) =
      .ok ⟨[(0, [(0, 4)])], [], 1, [[(0, 0, 4)]]⟩ ∧
    processWindow (fun _ _ _ => []) [(['S'], 4)] 0
        ⟨[], [(0, [(0, 4)])], 0, []⟩ (0, 0, 4) =
      .error (.noOverlaps 0 0 4) := by
  constructor
  · exact ((window_abort_or_one_partition
      (fun _ _ _ => [⟨⟨0, 4, 0⟩, [], ⟨0, 4, 0⟩⟩])
      [(['S'], 4)] 0 ⟨[], [(0, [(0, 4)])], 0, []⟩ (0, 0, 4)).2 rfl).1.trans
      (by rfl)
  · exact (window_abort_or_one_partition (fun _ _ _ => [])
      [(['S'], 4)] 0 ⟨[], [(0, [(0, 4)])], 0, []⟩ (0, 0, 4)).1 rfl

/-! ### The partitioner loop invariant -/

/-- Invariant carried by the partitioner state: the missing map has
unique keys and only nonempty entries of nonempty ranges; every in-range
position of every indexed sequence is covered by its missing or its
masked ranges; and every masked range is covered by the emitted partition
lines up to unit gaps whose predecessor is covered. -/
def LoopInv (S : List (List Char × Nat)) (st : PState) : Prop :=
  ((st.missing.map (fun e => e.1)).Nodup) ∧
  (∀ id v, lookupA st.missing id = some v → v ≠ [] ∧ ∀ r ∈ v, r.1 < r.2) ∧
  (∀ id, id < S.length → ∀ x, x < seqLenOf S id →
    covers ((lookupA st.missing id).getD []) x ∨
    covers ((lookupA st.masked id).getD []) x) ∧
  (∀ id, ∀ mr ∈ (lookupA st.masked id).getD [],
    GoodR (PartLines st.partitions id) mr)

theorem processWindow_inv (query : Nat → Int → Int → List Overlap)
    (S : List (List Char × Nat)) (L : Nat) (st : PState)
    (w : Nat × Nat × Nat) (st2 : PState)
    (Hq : ∀ id a b, ∀ ov ∈ query id a b, SaneIv S ov.q)
    (hinv : LoopInv S st)
    (hok : processWindow query S L st w = .ok st2) : LoopInv S st2 := by
  obtain ⟨hnd, hwf, hI1, hI2⟩ := hinv
  unfold processWindow at hok
  by_cases hemp : (subtract_masked_regions st.masked
      (partitionMerge (query w.1 (w.2.1 : Int) (w.2.2 : Int)))).isEmpty = true
  · rw [if_pos hemp] at hok
    exact absurd hok (by simp)
  · rw [if_neg hemp] at hok
    have hsane : ∀ ov ∈ subtract_masked_regions st.masked
        (partitionMerge (query w.1 (w.2.1 : Int) (w.2.2 : Int))),
        SaneIv S ov.q :=
      subtract_sane S st.masked _
        (partitionMerge_sane S _ (fun ov hov => Hq w.1 _ _ ov hov))
    set ovs2 := subtract_masked_regions st.masked
      (partitionMerge (query w.1 (w.2.1 : Int) (w.2.2 : Int))) with hovs2
    set parts2 := st.partitions ++
      [(extend_short_intervals (seqLenOf S) L ovs2).map partitionLine]
      with hparts2
    have hst2 : st2 =
        ⟨(update_masked_and_missing_regions st.masked st.missing ovs2).1,
         (update_masked_and_missing_regions st.masked st.missing ovs2).2,
         st.partitionNum + 1, parts2⟩ := (Except.ok.inj hok).symm
    subst hst2
    have hGnd := groupSpans_nodupKeys ovs2
    have hGmem := groupSpans_mem ovs2
    have hGpos : ∀ s sp, (s, sp) ∈ groupSpans ovs2 → ∀ r ∈ sp,
        r.1 < r.2 ∧ r.2 ≤ seqLenOf S s := by
      intro s sp hsp r hr
      obtain ⟨ov, hov, hmeta, hrsp⟩ := hGmem s sp hsp r hr
      have hp := spanOf_pos S ov.q (hsane ov hov)
      rw [hrsp, ← hmeta]
      exact hp
    have hGgood : ∀ s sp, (s, sp) ∈ groupSpans ovs2 → ∀ r ∈ sp,
        GoodR (PartLines parts2 s) r := by
      intro s sp hsp r hr
      obtain ⟨ov, hov, hmeta, hrsp⟩ := hGmem s sp hsp r hr
      have hsv := hsane ov hov
      have hline : ∀ x, r.1 ≤ x → x < r.2 → PartLines parts2 s x := by
        intro x h1 h2
        rw [hrsp] at h1 h2
        have hc := extendOne_line_covers S L ov hsv x h1 h2
        refine ⟨(extend_short_intervals (seqLenOf S) L ovs2).map
          partitionLine, ?_, partitionLine (extendOne (seqLenOf S) L ov),
          ?_, hc.1.trans hmeta, hc.2.1, hc.2.2⟩
        · rw [hparts2]
          exact List.mem_append_right _ (List.mem_singleton_self _)
        · apply List.mem_map_of_mem
          unfold extend_short_intervals
          exact (stableSort_perm mergeKeyLe _).mem_iff.mpr
            (List.mem_map_of_mem _ hov)
      have hrpos : r.1 < r.2 := by
        rw [hrsp]
        exact (spanOf_pos S ov.q hsv).1
      exact ⟨hrpos, fun x h1 h2 => Or.inl (hline x h1 h2),
        hline _ (by omega) (by omega)⟩
    have hkey : ∀ id : Nat,
        (lookupA (update_masked_and_missing_regions st.masked st.missing
            ovs2).1 id = lookupA st.masked id ∧
         lookupA (update_masked_and_missing_regions st.masked st.missing
            ovs2).2 id = lookupA st.missing id) ∨
        (∃ sp, (id, sp) ∈ groupSpans ovs2 ∧
          lookupA (update_masked_and_missing_regions st.masked st.missing
            ovs2).1 id =
            some (merge_ranges ((lookupA st.masked id).getD [] ++ sp)) ∧
          lookupA (update_masked_and_missing_regions st.masked st.missing
            ovs2).2 id =
            (match lookupA st.missing id with
             | none => none
             | some miss =>
               if merge_ranges (subtractAll miss
                   (merge_ranges ((lookupA st.masked id).getD [] ++ sp))) =
                   [] then none
               else some (merge_ranges (subtractAll miss
                   (merge_ranges
                     ((lookupA st.masked id).getD [] ++ sp)))))) := by
      intro id
      unfold update_masked_and_missing_regions
      by_cases hid : id ∈ (groupSpans ovs2).map (fun e => e.1)
      · right
        rcases List.mem_map.mp hid with ⟨e, heG, he1⟩
        have hmem : (id, e.2) ∈ groupSpans ovs2 := by
          rw [← he1]
          exact heG
        exact ⟨e.2, hmem,
          (foldUpd_key _ (st.masked, st.missing) id e.2 hGnd hmem hnd).1,
          (foldUpd_key _ (st.masked, st.missing) id e.2 hGnd hmem hnd).2⟩
      · left
        exact foldUpd_untouched _ (st.masked, st.missing) id
          (fun f hf hfid => hid (hfid ▸ List.mem_map_of_mem _ hf))
    unfold LoopInv
    dsimp only
    refine ⟨?_, ?_, ?_, ?_⟩
    · unfold update_masked_and_missing_regions
      exact foldUpd_nodupKeys _ (st.masked, st.missing) hnd
    · intro id v hv
      rcases hkey id with ⟨_, hs⟩ | ⟨sp, hspG, _, hs⟩
      · rw [hs] at hv
        exact hwf id v hv
      · rw [hs] at hv
        cases hmiss : lookupA st.missing id with
        | none =>
          rw [hmiss] at hv
          simp at hv
        | some miss =>
          rw [hmiss] at hv
          dsimp only at hv
          by_cases hnil : merge_ranges (subtractAll miss
              (merge_ranges ((lookupA st.masked id).getD [] ++ sp))) = []
          · rw [if_pos hnil] at hv
            simp at hv
          · rw [if_neg hnil] at hv
            rcases Option.some.inj hv with rfl
            refine ⟨hnil, ?_⟩
            exact merge_ranges_nonempty _
              (subtractAll_ne miss _ (hwf id miss hmiss).2)
    · intro id hidlt x hx
      rcases hkey id with ⟨hm, hs⟩ | ⟨sp, hspG, hm, hs⟩
      · rw [hm, hs]
        exact hI1 id hidlt x hx
      · have hMne_in : ∀ r ∈ (lookupA st.masked id).getD [] ++ sp,
            r.1 < r.2 := by
          intro r hrm
          rcases List.mem_append.mp hrm with h1 | h1
          · exact (hI2 id r h1).1
          · exact (hGpos id sp hspG r h1).1
        have hMcov : ∀ y, covers ((lookupA st.masked id).getD []) y →
            covers (merge_ranges ((lookupA st.masked id).getD [] ++ sp))
              y := by
          intro y hy
          rw [merge_ranges_covers _ hMne_in]
          exact Or.inl ((covers_append _ _ y).mpr (Or.inl hy))
        rw [hm, hs]
        cases hmiss : lookupA st.missing id with
        | none =>
          rcases hI1 id hidlt x hx with h1 | h1
          · rw [hmiss] at h1
            exact absurd h1 (covers_nil x)
          · exact Or.inr (hMcov x h1)
        | some miss =>
          by_cases hnil : merge_ranges (subtractAll miss
              (merge_ranges ((lookupA st.masked id).getD [] ++ sp))) = []
          · rcases hI1 id hidlt x hx with h1 | h1
            · rw [hmiss] at h1
              by_cases hMx : covers (merge_ranges
                  ((lookupA st.masked id).getD [] ++ sp)) x
              · exact Or.inr hMx
              · exfalso
                have hp : covers (subtractAll miss (merge_ranges
                    ((lookupA st.masked id).getD [] ++ sp))) x :=
                  (subtractAll_covers _ _ x).mpr ⟨h1, hMx⟩
                rw [(merge_ranges_eq_nil_iff _).mp hnil] at hp
                exact covers_nil x hp
            · exact Or.inr (hMcov x h1)
          · rcases hI1 id hidlt x hx with h1 | h1
            · rw [hmiss] at h1
              by_cases hMx : covers (merge_ranges
                  ((lookupA st.masked id).getD [] ++ sp)) x
              · exact Or.inr hMx
              · left
                dsimp only
                rw [if_neg hnil]
                simp only [Option.getD_some]
                rw [merge_ranges_covers _
                  (subtractAll_ne miss _ (hwf id miss hmiss).2)]
                exact Or.inl ((subtractAll_covers _ _ x).mpr ⟨h1, hMx⟩)
            · exact Or.inr (hMcov x h1)
    · intro id mr hmr
      rcases hkey id with ⟨hm, _⟩ | ⟨sp, hspG, hm, _⟩
      · rw [hm] at hmr
        exact goodR_mono
          (fun x hx => by rw [hparts2]; exact partLines_append _ _ id x hx)
          mr (hI2 id mr hmr)
      · rw [hm] at hmr
        have hMne_in : ∀ r ∈ (lookupA st.masked id).getD [] ++ sp,
            r.1 < r.2 := by
          intro r hrm
          rcases List.mem_append.mp hrm with h1 | h1
          · exact (hI2 id r h1).1
          · exact (hGpos id sp hspG r h1).1
        have hall : ∀ r ∈ (lookupA st.masked id).getD [] ++ sp,
            GoodR (PartLines parts2 id) r := by
          intro r hrm
          rcases List.mem_append.mp hrm with h1 | h1
          · exact goodR_mono
              (fun x hx => by
                rw [hparts2]; exact partLines_append _ _ id x hx)
              r (hI2 id r h1)
          · exact hGgood id sp hspG r h1
        exact merge_ranges_good _ _ hMne_in hall mr hmr

theorem processWindows_inv (query : Nat → Int → Int → List Overlap)
    (S : List (List Char × Nat)) (L : Nat)
    (Hq : ∀ id a b, ∀ ov ∈ query id a b, SaneIv S ov.q) :
    ∀ (ws : List (Nat × Nat × Nat)) (st st2 : PState), LoopInv S st →
      processWindows query S L ws st = .ok st2 → LoopInv S st2 := by
  intro ws
  induction ws with
  | nil =>
    intro st st2 h hok
    unfold processWindows at hok
    rw [← Except.ok.inj hok]
    exact h
  | cons w ws' ih =>
    intro st st2 h hok
    unfold processWindows at hok
    cases hpw : processWindow query S L st w with
    | error e =>
      rw [hpw] at hok
      simp at hok
    | ok st1 =>
      rw [hpw] at hok
      dsimp only at hok
      exact ih st1 st2 (processWindow_inv query S L st w st1 Hq h hpw) hok

/-- Whenever the window loop exits normally from a nonempty window list
under the invariant, the missing map is empty and the invariant holds of
the final state. -/
theorem partitionLoop_spec (query : Nat → Int → Int → List Overlap)
    (S : List (List Char × Nat)) (L W : Nat) (HW : 0 < W)
    (Hq : ∀ id a b, ∀ ov ∈ query id a b, SaneIv S ov.q) :
    ∀ (fuel : Nat) (windows : List (Nat × Nat × Nat)) (st res : PState),
      windows ≠ [] → LoopInv S st →
      partitionLoop query S L W fuel windows st = .ok res →
      res.missing = [] ∧ LoopInv S res := by
  intro fuel
  induction fuel with
  | zero =>
    intro windows st res hw hinv hok
    unfold partitionLoop at hok
    simp at hok
  | succ n ih =>
    intro windows st res hw hinv hok
    unfold partitionLoop at hok
    rw [if_neg (by rw [List.isEmpty_iff]; exact hw)] at hok
    cases hpw : processWindows query S L windows st with
    | error e =>
      rw [hpw] at hok
      simp at hok
    | ok st2 =>
      rw [hpw] at hok
      dsimp only at hok
      have hinv2 := processWindows_inv query S L Hq windows st st2 hinv hpw
      by_cases hm2 : st2.missing.isEmpty = true
      · rw [if_pos hm2] at hok
        rw [← Except.ok.inj hok]
        exact ⟨List.isEmpty_iff.mp hm2, hinv2⟩
      · rw [if_neg hm2] at hok
        have hm2' : st2.missing ≠ [] := by
          intro h
          apply hm2
          rw [h]
          rfl
        obtain ⟨e0, rest0, he0⟩ : ∃ e0 rest0, st2.missing = e0 :: rest0 := by
          cases hml : st2.missing with
          | nil => exact absurd hml hm2'
          | cons a b => exact ⟨a, b, rfl⟩
        have hlk : lookupA st2.missing e0.1 = some e0.2 := by
          rw [he0]
          simp [lookupA]
        have hwf2 := hinv2.2.1 e0.1 e0.2 hlk
        obtain ⟨r0, rrest, hr0⟩ : ∃ r0 rrest, e0.2 = r0 :: rrest := by
          cases hrl : e0.2 with
          | nil => exact absurd hrl hwf2.1
          | cons a b => exact ⟨a, b, rfl⟩
        have hr0mem : r0 ∈ e0.2 := by
          rw [hr0]
          exact List.mem_cons_self _ _
        have hr0pos : r0.1 < r0.2 := hwf2.2 r0 hr0mem
        have he0mem : e0 ∈ st2.missing := by
          rw [he0]
          exact List.mem_cons_self _ _
        obtain ⟨s, a, b, hfl, hab⟩ :=
          findLongest_pos st2.missing e0 he0mem r0 hr0mem hr0pos
        rw [hfl] at hok
        dsimp only at hok
        exact ih _ st2 res (tileWindows_ne W s a b HW hab) hinv2 hok

/-- Claim C5, amended: when `partition_alignments` returns `Ok` (with a
positive window size, only positive sequence lengths, and a query whose
overlaps are sane intervals of indexed sequences), `missing_regions` is
empty, and the partition files cover every position of `[0, len)` of
every prefix-matching sequence UP TO UNIT GAPS: each position is covered
by some emitted query interval, or its predecessor is (a width-1 gap
swallowed by the gap-1 adjacency re-merge of the masked ranges is counted
as processed without ever being written to a partition). -/
theorem partitioner_exit_coverage (query : Nat → Int → Int → List Overlap)
    (S : List (List Char × Nat)) (W : Nat) (pfx : List Char)
    (L fuel : Nat) (res : PState) (HW : 0 < W)
    (Hlen : ∀ id, id < S.length → 0 < seqLenOf S id)
    (Hq : ∀ id a b, ∀ ov ∈ query id a b, SaneIv S ov.q)
    (Hok : partition_alignments query S W pfx L fuel = .ok res) :
    res.missing = [] ∧
    ∀ id, id < S.length → pfx.isPrefixOf (seqNameOf S id) = true →
      ∀ x, x < seqLenOf S id →
        PartLines res.partitions id x ∨
          (1 ≤ x ∧ PartLines res.partitions id (x - 1)) := by
  unfold partition_alignments at Hok
  by_cases hpf : ((List.range S.length).filter
      (fun id => pfx.isPrefixOf (seqNameOf S id))).isEmpty = true
  · rw [if_pos hpf] at Hok
    simp at Hok
  · rw [if_neg hpf] at Hok
    have hne : ((List.range S.length).filter
        (fun id => pfx.isPrefixOf (seqNameOf S id))) ≠ [] := by
      intro h
      apply hpf
      rw [h]
      rfl
    obtain ⟨id0, rest0, hid0⟩ : ∃ a l, ((List.range S.length).filter
        (fun id => pfx.isPrefixOf (seqNameOf S id))) = a :: l := by
      cases hl : ((List.range S.length).filter
          (fun id => pfx.isPrefixOf (seqNameOf S id))) with
      | nil => exact absurd hl hne
      | cons a l => exact ⟨a, l, rfl⟩
    have hid0mem : id0 ∈ (List.range S.length).filter
        (fun id => pfx.isPrefixOf (seqNameOf S id)) := by
      rw [hid0]
      exact List.mem_cons_self _ _
    have hid0lt : id0 < S.length :=
      List.mem_range.mp (List.mem_filter.mp hid0mem).1
    have htile := tileWindows_ne W id0 0 (seqLenOf S id0) HW
      (Hlen id0 hid0lt)
    obtain ⟨w0, hw0⟩ : ∃ w, w ∈ tileWindows W id0 0 (seqLenOf S id0) := by
      cases htl : tileWindows W id0 0 (seqLenOf S id0) with
      | nil => exact absurd htl htile
      | cons a l => exact ⟨a, List.mem_cons_self _ _⟩
    have hwne : (((List.range S.length).filter
        (fun id => pfx.isPrefixOf (seqNameOf S id))).flatMap
        (fun id => tileWindows W id 0 (seqLenOf S id))) ≠ [] := by
      intro hcon
      have hmem : w0 ∈ (((List.range S.length).filter
          (fun id => pfx.isPrefixOf (seqNameOf S id))).flatMap
          (fun id => tileWindows W id 0 (seqLenOf S id))) :=
        List.mem_flatMap.mpr ⟨id0, hid0mem, hw0⟩
      rw [hcon] at hmem
      simp at hmem
    have hinv0 : LoopInv S ⟨[], (List.range S.length).map
        (fun id => (id, [(0, seqLenOf S id)])), 0, []⟩ := by
      refine ⟨?_, ?_, ?_, ?_⟩
      · dsimp only
        have hkeys : (((List.range S.length).map
            (fun id => (id, [(0, seqLenOf S id)]))).map (fun e => e.1)) =
            List.range S.length := by
          rw [List.map_map]
          simp [Function.comp_def]
        rw [hkeys]
        exact List.nodup_range _
      · intro id v hv
        dsimp only at hv
        rw [lookupA_mapRange] at hv
        by_cases h : id < S.length
        · rw [if_pos h] at hv
          rcases Option.some.inj hv with rfl
          refine ⟨by simp, ?_⟩
          intro r hr
          rw [List.mem_singleton] at hr
          rw [hr]
          exact Hlen id h
        · rw [if_neg h] at hv
          exact absurd hv (by simp)
      · intro id hid x hx
        left
        dsimp only
        rw [lookupA_mapRange, if_pos hid]
        exact ⟨(0, seqLenOf S id), List.mem_singleton_self _,
          Nat.zero_le x, hx⟩
      · intro id mr hmr
        dsimp only at hmr
        exact absurd hmr (List.not_mem_nil mr)
    have hfinal := partitionLoop_spec query S L W HW Hq fuel _ _ res
      hwne hinv0 Hok
    refine ⟨hfinal.1, ?_⟩
    intro id hid _hpfx x hx
    rcases hfinal.2.2.2.1 id hid x hx with h1 | h1
    · rw [hfinal.1] at h1
      exact absurd h1 (covers_nil x)
    · obtain ⟨mr, hmr, ha, hb⟩ := h1
      exact (hfinal.2.2.2.2 id mr hmr).2.1 x ha hb

/-- Counterexample to claim C5 as stated.  One sequence of length 12,
window size 6.  The first window's overlaps cover `[0,5)`, the second
window's cover `[6,12)`; re-merging the masked ranges `(0,5)` and
`(6,12)` (gap-1 adjacency) yields `(0,12)`, so the subtraction empties
the missing map and the run exits `Ok` — yet position 5 was never
written to any partition file: the partitions do NOT cover `[0,12)`. -/
theorem partitioner_coverage_counterexample :
    partition_alignments
        (fun id a b =>
          if id = 0 ∧ a = 0 ∧ b = 6 then [⟨⟨0, 5, 0⟩, [], ⟨0, 5, 0⟩⟩]
          else if id = 0 ∧ a = 6 ∧ b = 12 then
            [⟨⟨6, 12, 0⟩, [], ⟨6, 12, 0⟩⟩]
          else [])
        [(['S'], 12)] 6 ['S'] 0 3 =
      .ok ⟨[(0, [(0, 12)])], [], 2, [[(0, 0, 5)], [(0, 6, 12)]]⟩ ∧
    List.isPrefixOf ['S'] (seqNameOf [(['S'], 12)] 0) = true ∧
    5 < seqLenOf [(['S'], 12)] 0 ∧
    ¬PartLines [[(0, 0, 5)], [(0, 6, 12)]] 0 5 := by
  refine ⟨rfl, rfl, by decide, by decide⟩

theorem partitioner_exit_coverage_witness :
    (⟨[(0, [(0, 5)])], [], 1, [[(0, 0, 5)]]⟩ : PState).missing = [] ∧
    ∀ id, id < ([(['S'], 5)] : List (List Char × Nat)).length →
      List.isPrefixOf ['S'] (seqNameOf [(['S'], 5)] id) = true →
      ∀ x, x < seqLenOf [(['S'], 5)] id →
        PartLines (⟨[(0, [(0, 5)])], [], 1, [[(0, 0, 5)]]⟩ : PState).partitions
          id x ∨
        (1 ≤ x ∧
          PartLines
            (⟨[(0, [(0, 5)])], [], 1, [[(0, 0, 5)]]⟩ : PState).partitions
            id (x - 1)) :=
  partitioner_exit_coverage
    (fun id a b =>
      if id = 0 ∧ a = 0 ∧ b = 5 then [⟨⟨0, 5, 0⟩, [], ⟨0, 5, 0⟩⟩] else [])
    [(['S'], 5)] 5 ['S'] 0 2 ⟨[(0, [(0, 5)])], [], 1, [[(0, 0, 5)]]⟩
    (by decide)
    (by
      intro id hid
      have h : id = 0 := by
        simp at hid
        omega
      rw [h]
      decide)
    (by
      intro id a b ov hov
      dsimp only at hov
      by_cases h : id = 0 ∧ a = 0 ∧ b = 5
      · rw [if_pos h] at hov
        rw [List.mem_singleton] at hov
        rw [hov]
        decide
      · rw [if_neg h] at hov
        exact absurd hov (List.not_mem_nil ov))
    rfl

end Impg
